import Mathlib

/-!
# Exam scheduling by graph colouring (`src/src/schedule.cpp`)

A shallow embedding of `clean`, `schedule`, `buildAdjacencyMatrix`,
`graphColor` and `isSafe`.

Conventions of the embedding

* `std::vector<T>` is `List T`; `V2D` is `List (List String)`.
* `std::find(b.begin(), b.end(), x) != b.end()` is `b.contains x`.
* A loop `for (i = s; i < a.size(); i++)` that only reads `a[i]` walks the
  elements of `a` (from position `s`); its accesses are in bounds by its guard.
* Every other subscript (`c[0]`, `adjMatrix[k][i]`, `colors[i]`,
  `colors[k] = c`, `adj_mat[k][i] = 1`, `course_order[a]`) is checked: the
  function is `none` when the subscript is out of range (undefined behaviour
  in C++).
* `unsigned` counters are `Nat`.  `v` and `m` are sizes of vectors held in
  memory.  The counter `c` of `graphColor` runs up to `m + 1`, which wraps only
  for `m = 2 ^ 32 - 1`, a budget that needs a timeslot vector of `2 ^ 32 - 1`
  strings; the embedding covers the budgets `m < 2 ^ 32 - 1`.
* The recursion of `graphColor` carries a fuel argument; `v - k + 1` is enough
  (`graphColor_total`).
-/

namespace ScheduleGen

/-- The table type `V2D` of the program. -/
abbrev V2D := List (List String)

/-! ## Checked matrix access -/

/-- The read `adjMatrix[k][i]`. -/
def getEntry (adjMatrix : List (List Int)) (k i : Nat) : Option Int :=
  match adjMatrix[k]? with
  | none => none
  | some row => row[i]?

/-- The write `adj_mat[r][c] = x`. -/
def setEntry (adj_mat : List (List Int)) (r c : Nat) (x : Int) : Option (List (List Int)) :=
  match adj_mat[r]? with
  | none => none
  | some row => if c < row.length then some (adj_mat.set r (row.set c x)) else none

/-- The write `colors[k] = c`. -/
def setColor (colors : List Nat) (k c : Nat) : Option (List Nat) :=
  if k < colors.length then some (colors.set k c) else none

/-! ## `isSafe` (lines 201-208) -/

/-- The loop of `isSafe` at index `i` with `n` iterations left
(`for (i = 0; i < v; i++)`, `n = v - i`).  `&&` reads `colors[i]` only when
`adjMatrix[k][i] == 1`. -/
def isSafeLoop (k c : Nat) (adjMatrix : List (List Int)) (colors : List Nat) :
    Nat → Nat → Option Bool
  | _, 0 => some true
  | i, n + 1 =>
    match getEntry adjMatrix k i with
    | none => none
    | some a =>
      if a = 1 then
        match colors[i]? with
        | none => none
        | some ci => if c = ci then some false else isSafeLoop k c adjMatrix colors (i + 1) n
      else isSafeLoop k c adjMatrix colors (i + 1) n

/-- The function `isSafe(k, c, adjMatrix, v, colors)`. -/
def isSafe (k c : Nat) (adjMatrix : List (List Int)) (v : Nat) (colors : List Nat) : Option Bool :=
  isSafeLoop k c adjMatrix colors 0 v

/-! ## `graphColor` (lines 185-199) -/

/-- The loop `for (c = 1; c <= m; c++)` of `graphColor` at colour `c` with `n`
iterations left (`n = m + 1 - c`); `next` is the recursive call
`graphColor(k + 1, m, colors, adjMatrix, v)`.  The result is the returned
boolean and the `colors` array after the call. -/
def colorLoop (next : List Nat → Option (Bool × List Nat)) (k : Nat)
    (adjMatrix : List (List Int)) (v : Nat) : Nat → Nat → List Nat → Option (Bool × List Nat)
  | _, 0, colors => some (false, colors)
  | c, n + 1, colors =>
    match isSafe k c adjMatrix v colors with
    | none => none
    | some false => colorLoop next k adjMatrix v (c + 1) n colors
    | some true =>
      match setColor colors k c with
      | none => none
      | some colors1 =>
        match next colors1 with
        | none => none
        | some (true, colors2) => some (true, colors2)
        | some (false, colors2) =>
          match setColor colors2 k 0 with
          | none => none
          | some colors3 => colorLoop next k adjMatrix v (c + 1) n colors3

/-- The function `graphColor(k, m, colors, adjMatrix, v)`, by recursion on fuel. -/
def graphColor : Nat → Nat → Nat → List Nat → List (List Int) → Nat → Option (Bool × List Nat)
  | 0, _, _, _, _, _ => none
  | fuel + 1, k, m, colors, adjMatrix, v =>
    if k = v then some (true, colors)
    else colorLoop (fun cs => graphColor fuel (k + 1) m cs adjMatrix v) k adjMatrix v 1 m colors

/-! ## `clean` (lines 57-76) -/

/-- The loop `for (auto const& b : student)` (lines 64-68) for the roster token
`ai = a[i]`: one `push_back(a[i])` for each record holding both tokens. -/
def cleanStudents (ai cse : String) : V2D → List String → List String
  | [], tmp => tmp
  | b :: rest, tmp =>
    if b.contains ai && b.contains cse then cleanStudents ai cse rest (tmp ++ [ai])
    else cleanStudents ai cse rest tmp

/-- The loop `for (i = 1; i < a.size(); i++)` (lines 63-70) over the roster
tokens of `a` that are still to be visited. -/
def cleanRoster (cse : String) (student : V2D) : List String → List String → List String
  | [], tmp => tmp
  | ai :: rest, tmp => cleanRoster cse student rest (cleanStudents ai cse student tmp)

/-- The loop `for (auto const& a : cv)` (lines 59-74); `vec` is the output so far. -/
def cleanLoop (student : V2D) : V2D → V2D → Option V2D
  | [], vec => some vec
  | a :: rest, vec =>
    match a[0]? with
    | none => none
    | some cse =>
      let tmp := cleanRoster cse student (a.drop 1) [cse]
      if tmp.length > 1 then cleanLoop student rest (vec ++ [tmp])
      else cleanLoop student rest vec

/-- The function `clean(cv, student)`. -/
def clean (cv student : V2D) : Option V2D :=
  cleanLoop student cv []

/-! ## `buildAdjacencyMatrix` (lines 156-183) -/

/-- The loop `for (auto& c : courses) course_order.push_back(c[0])`
(lines 100-102 and 158-160). -/
def courseOrderLoop : V2D → List String → Option (List String)
  | [], course_order => some course_order
  | crs :: rest, course_order =>
    match crs[0]? with
    | none => none
    | some key => courseOrderLoop rest (course_order ++ [key])

/-- The loop over `k` (lines 174-179) for the token `tok = courses[i][j]`; the
rows still to be visited are `courses[k], courses[k+1], ...`. -/
def markLoop (i : Nat) (tok : String) :
    V2D → Nat → List (List Int) → Option (List (List Int))
  | [], _, adj_mat => some adj_mat
  | ck :: rest, k, adj_mat =>
    if ck.contains tok then
      match setEntry adj_mat k i 1 with
      | none => none
      | some adj1 =>
        match setEntry adj1 i k 1 with
        | none => none
        | some adj2 => markLoop i tok rest (k + 1) adj2
    else markLoop i tok rest (k + 1) adj_mat

/-- The loop over `j` (line 173) over the roster tokens of `courses[i]` still
to be visited. -/
def tokenLoop (courses : V2D) (i : Nat) :
    List String → List (List Int) → Option (List (List Int))
  | [], adj_mat => some adj_mat
  | tok :: rest, adj_mat =>
    match markLoop i tok courses 0 adj_mat with
    | none => none
    | some adj1 => tokenLoop courses i rest adj1

/-- The loop over `i` (line 172); the rows still to be visited are
`courses[i], courses[i+1], ...`. -/
def courseLoop (courses : V2D) :
    V2D → Nat → List (List Int) → Option (List (List Int))
  | [], _, adj_mat => some adj_mat
  | ci :: rest, i, adj_mat =>
    match tokenLoop courses i (ci.drop 1) adj_mat with
    | none => none
    | some adj1 => courseLoop courses rest (i + 1) adj1

/-- The function `buildAdjacencyMatrix(courses)`: an `n`-by-`n` zero matrix
(lines 164-170) updated by the three nested loops. -/
def buildAdjacencyMatrix (courses : V2D) : Option (List (List Int)) :=
  match courseOrderLoop courses [] with
  | none => none
  | some course_order =>
    let n := course_order.length
    courseLoop courses courses 0 (List.replicate n (List.replicate n 0))

/-! ## `schedule` (lines 94-150) -/

/-- The loop over `a` (lines 140-144) for the colour `slot = i + 1`; the
colours still to be visited are `colors[a], colors[a+1], ...`. -/
def slotLoop (course_order : List String) (slot : Nat) :
    List Nat → Nat → List String → Option (List String)
  | [], _, temp => some temp
  | ca :: rest, a, temp =>
    if ca = slot then
      match course_order[a]? with
      | none => none
      | some key => slotLoop course_order slot rest (a + 1) (temp ++ [key])
    else slotLoop course_order slot rest (a + 1) temp

/-- The loop over `i` (lines 137-146); the labels still to be visited are
`timeslots[i], timeslots[i+1], ...`. -/
def rowLoop (course_order : List String) (colors : List Nat) :
    List String → Nat → V2D → Option V2D
  | [], _, ans => some ans
  | t :: rest, i, ans =>
    match slotLoop course_order (i + 1) colors 0 [t] with
    | none => none
    | some temp => rowLoop course_order colors rest (i + 1) (ans ++ [temp])

/-- Lines 96-116 of `schedule`: the set-up and the call
`graphColor(0, m, colors, adjMatrix, v)`; the result is `course_order`, the
returned boolean and `colors` after the call. -/
def scheduleSearch (courses : V2D) (timeslots : List String) :
    Option (List String × Bool × List Nat) :=
  let m := timeslots.length
  match courseOrderLoop courses [] with
  | none => none
  | some course_order =>
    let v := course_order.length
    let colors := List.replicate v 0
    match buildAdjacencyMatrix courses with
    | none => none
    | some adjMatrix =>
      match graphColor (v + 1) 0 m colors adjMatrix v with
      | none => none
      | some (found, colors1) => some (course_order, found, colors1)

/-- The function `schedule(courses, timeslots)`. -/
def schedule (courses : V2D) (timeslots : List String) : Option V2D :=
  match scheduleSearch courses timeslots with
  | none => none
  | some (_, false, _) => some [["-1"]]
  | some (course_order, true, colors) => rowLoop course_order colors timeslots 0 []

/-! ## Specification vocabulary -/

/-- The matrix `adj` has `v` rows of length `v`. -/
def IsMatrix (v : Nat) (adj : List (List Int)) : Prop :=
  adj.length = v ∧ ∀ row ∈ adj, row.length = v

instance (v : Nat) (adj : List (List Int)) : Decidable (IsMatrix v adj) := by
  unfold IsMatrix; infer_instance

/-- The matrix is symmetric on the vertices `0 .. v-1`. -/
def Symmetric (v : Nat) (adj : List (List Int)) : Prop :=
  ∀ i, i < v → ∀ j, j < v → getEntry adj i j = getEntry adj j i

instance (v : Nat) (adj : List (List Int)) : Decidable (Symmetric v adj) := by
  unfold Symmetric; infer_instance

/-- The assignment `f` is a valid `m`-colouring of the first `v` vertices: every
colour is in `[1, m]` and distinct vertices `i`, `j` with `adj[i][j] = 1` get
different colours. -/
def ValidColoring (adj : List (List Int)) (v m : Nat) (f : Nat → Nat) : Prop :=
  ∀ i, i < v → (1 ≤ f i ∧ f i ≤ m) ∧
    ∀ j, j < v → i ≠ j → getEntry adj i j = some 1 → f i ≠ f j

instance (adj : List (List Int)) (v m : Nat) (f : Nat → Nat) :
    Decidable (ValidColoring adj v m f) := by
  unfold ValidColoring; infer_instance

/-- What the search itself maintains on the vertices below `k`: colours in
`[1, m]`, and vertex `i` differs from every earlier `j` with `adj[i][j] = 1`. -/
def PrefixValid (adj : List (List Int)) (m k : Nat) (f : Nat → Nat) : Prop :=
  ∀ i, i < k → (1 ≤ f i ∧ f i ≤ m) ∧
    ∀ j, j < i → getEntry adj i j = some 1 → f i ≠ f j

/-- The entry state of `graphColor(k, ...)`: vertices below `k` carry a partial
colouring, the others are unassigned. -/
def SearchState (adj : List (List Int)) (m k : Nat) (colors : List Nat) : Prop :=
  PrefixValid adj m k (fun i => colors.getD i 0) ∧ ∀ i, k ≤ i → colors.getD i 0 = 0

/-- What a call `graphColor(k, ...)` from the state `colors` guarantees about
its result `(b, cs)`: the length is kept; on `true` all `v` vertices are
coloured; on `false` the array is restored and no colouring extends the
colours of the vertices below `k`. -/
def SearchPost (adj : List (List Int)) (v m k : Nat) (colors : List Nat)
    (r : Bool × List Nat) : Prop :=
  r.2.length = v ∧
  (r.1 = true → SearchState adj m v r.2 ∧ ∀ i, i < k → r.2.getD i 0 = colors.getD i 0) ∧
  (r.1 = false → r.2 = colors ∧
    ∀ f, PrefixValid adj m v f → (∀ i, i < k → f i = colors.getD i 0) → False)

/-- The matrix `adj2` is `adj1` with the entries at the places in `S` set to `1`
and every other entry unchanged. -/
def Updated (adj1 adj2 : List (List Int)) (S : Nat → Nat → Prop) : Prop :=
  ∀ a b, (S a b → getEntry adj2 a b = some 1) ∧ (¬ S a b → getEntry adj2 a b = getEntry adj1 a b)

/-- Some roster token (position `>= 1`) of course `i` occurs in the record of
course `k`, at any position. -/
def Hit (courses : V2D) (i k : Nat) : Prop :=
  ∃ ci ck, courses[i]? = some ci ∧ courses[k]? = some ck ∧ ∃ tok, tok ∈ ci.drop 1 ∧ tok ∈ ck

/-- Every row of the table has a key (`c[0]` exists). -/
def RowsNonEmpty (t : V2D) : Prop := ∀ row ∈ t, row ≠ []

instance (t : V2D) : Decidable (RowsNonEmpty t) := by
  unfold RowsNonEmpty; infer_instance

/-- The keys (token 0) of the rows of a table. -/
def keys (t : V2D) : List String := t.filterMap (fun row => row[0]?)

/-- The keys of the courses whose colour is `slot`, in vertex order. -/
def slotCourses (course_order : List String) (colors : List Nat) (slot : Nat) : List String :=
  ((course_order.zip colors).filter (fun p => decide (p.2 = slot))).map Prod.fst

/-- The rows of a successful schedule for the labels `timeslots[i], timeslots[i+1], ...`:
each label followed by the keys of the courses coloured with its 1-based index. -/
def rowsFrom (course_order : List String) (colors : List Nat) : Nat → List String → V2D
  | _, [] => []
  | i, t :: rest =>
    (t :: slotCourses course_order colors (i + 1)) :: rowsFrom course_order colors (i + 1) rest

/-- Some single record of `student` holds both the token `t` and the key `cse`
(at any position). -/
def keeps (student : V2D) (cse t : String) : Bool :=
  student.any (fun b => b.contains t && b.contains cse)

/-- The row has at least one student token (position `>= 1`) that some record
of `student` holds together with the row's key. -/
def survives (student : V2D) (a : List String) : Bool :=
  match a with
  | [] => false
  | cse :: toks => toks.any (fun t => keeps student cse t)

/-- The tokens pushed by the roster loop of `clean` for the tokens `toks`: each
token once for every record of `student` that holds it together with `cse`. -/
def keptTokens (cse : String) (student : V2D) : List String → List String
  | [] => []
  | ai :: rest =>
    List.replicate (student.countP (fun b => b.contains ai && b.contains cse)) ai ++
      keptTokens cse student rest

/-- The output row of `clean` for the input row `a`, if it has one. -/
def cleanRow (student : V2D) (a : List String) : Option (List String) :=
  match a with
  | [] => none
  | cse :: toks =>
    if keptTokens cse student toks = [] then none else some (cse :: keptTokens cse student toks)

/-- The colouring `f` is lexicographically less than or equal to `g` on the
vertices `0 .. v-1`. -/
def LexLE (v : Nat) (f g : Nat → Nat) : Prop :=
  (∀ i, i < v → f i = g i) ∨ ∃ i, i < v ∧ (f i < g i ∧ ∀ j, j < i → f j = g j)

instance (v : Nat) (f g : Nat → Nat) : Decidable (LexLE v f g) := by
  unfold LexLE; infer_instance

/-- The vertices above `k` are unassigned in `colors`. -/
def ZerosAbove (k : Nat) (colors : List Nat) : Prop :=
  ∀ i, k < i → colors.getD i 0 = 0

instance (courses : V2D) (i k : Nat) : Decidable (Hit courses i k) :=
  match hi : courses[i]?, hk : courses[k]? with
  | some ci, some ck =>
    if h : ∃ tok, tok ∈ ci.drop 1 ∧ tok ∈ ck then isTrue ⟨ci, ck, hi, hk, h⟩
    else isFalse (fun ⟨ci1, ck1, h1, h2, h3⟩ => by
      rw [hi] at h1; rw [hk] at h2
      injection h1 with h1; injection h2 with h2
      subst h1; subst h2
      exact h h3)
  | none, _ => isFalse (fun ⟨ci1, ck1, h1, h2, h3⟩ => by rw [hi] at h1; exact Option.noConfusion h1)
  | some _, none =>
    isFalse (fun ⟨ci1, ck1, h1, h2, h3⟩ => by rw [hk] at h2; exact Option.noConfusion h2)

/-- The courses `i` and `j` share a roster token (positions `>= 1` of both
records). -/
def SharesToken (courses : V2D) (i j : Nat) : Prop :=
  ∃ ci cj, courses[i]? = some ci ∧ courses[j]? = some cj ∧
    ∃ tok, tok ∈ ci.drop 1 ∧ tok ∈ cj.drop 1

instance (courses : V2D) (i j : Nat) : Decidable (SharesToken courses i j) :=
  match hi : courses[i]?, hj : courses[j]? with
  | some ci, some cj =>
    if h : ∃ tok, tok ∈ ci.drop 1 ∧ tok ∈ cj.drop 1 then isTrue ⟨ci, cj, hi, hj, h⟩
    else isFalse (fun ⟨ci1, cj1, h1, h2, h3⟩ => by
      rw [hi] at h1; rw [hj] at h2
      injection h1 with h1; injection h2 with h2
      subst h1; subst h2
      exact h h3)
  | none, _ => isFalse (fun ⟨ci1, cj1, h1, h2, h3⟩ => by rw [hi] at h1; exact Option.noConfusion h1)
  | some _, none =>
    isFalse (fun ⟨ci1, cj1, h1, h2, h3⟩ => by rw [hj] at h2; exact Option.noConfusion h2)

/-- The course lists (positions `>= 1`) of the rows of a schedule, one after
the other in row order. -/
def concatCourses : V2D → List String
  | [] => []
  | row :: rest => row.drop 1 ++ concatCourses rest

/-- The roster filter in the words of the specification: the key followed by
the roster tokens that some student record holds together with the key, each
occurrence of the input kept at most once and in input order. -/
def filterRoster (student : V2D) (a : List String) : List String :=
  match a with
  | [] => []
  | cse :: toks => cse :: toks.filter (fun t => keeps student cse t)

/-! ## Lemmas on `isSafe` -/

theorem isSafeLoop_true (k c : Nat) (adj : List (List Int)) (colors : List Nat) :
    ∀ (n i : Nat), isSafeLoop k c adj colors i n = some true →
      ∀ j, i ≤ j → j < i + n → getEntry adj k j = some 1 → colors[j]? ≠ some c := by
  intro n
  induction n with
  | zero => intro i _ j h1 h2; omega
  | succ n ih =>
    intro i h j h1 h2 hj
    rw [isSafeLoop] at h
    by_cases hij : j = i
    · subst hij
      rw [hj] at h
      simp only [if_true] at h
      cases hc : colors[j]? with
      | none => simp
      | some ci =>
        rw [hc] at h
        simp only at h
        by_cases hcc : c = ci
        · simp [hcc] at h
        · intro h'; apply hcc; injection h' with h'; exact h'.symm
    · have hrec : isSafeLoop k c adj colors (i + 1) n = some true := by
        cases he : getEntry adj k i with
        | none => rw [he] at h; simp at h
        | some a =>
          rw [he] at h
          simp only at h
          by_cases ha : a = 1
          · rw [if_pos ha] at h
            cases hc : colors[i]? with
            | none => rw [hc] at h; simp at h
            | some ci =>
              rw [hc] at h
              simp only at h
              by_cases hcc : c = ci
              · simp [hcc] at h
              · rw [if_neg hcc] at h; exact h
          · rw [if_neg ha] at h; exact h
      exact ih (i + 1) hrec j (by omega) (by omega) hj

theorem isSafeLoop_false (k c : Nat) (adj : List (List Int)) (colors : List Nat) :
    ∀ (n i : Nat), isSafeLoop k c adj colors i n = some false →
      ∃ j, i ≤ j ∧ j < i + n ∧ getEntry adj k j = some 1 ∧ colors[j]? = some c := by
  intro n
  induction n with
  | zero => intro i h; simp [isSafeLoop] at h
  | succ n ih =>
    intro i h
    rw [isSafeLoop] at h
    cases he : getEntry adj k i with
    | none => rw [he] at h; simp at h
    | some a =>
      rw [he] at h
      simp only at h
      by_cases ha : a = 1
      · rw [if_pos ha] at h
        cases hc : colors[i]? with
        | none => rw [hc] at h; simp at h
        | some ci =>
          rw [hc] at h
          simp only at h
          by_cases hcc : c = ci
          · exact ⟨i, le_refl _, by omega, by rw [he, ha], by rw [hc, hcc]⟩
          · rw [if_neg hcc] at h
            obtain ⟨j, h1, h2, h3, h4⟩ := ih (i + 1) h
            exact ⟨j, by omega, by omega, h3, h4⟩
      · rw [if_neg ha] at h
        obtain ⟨j, h1, h2, h3, h4⟩ := ih (i + 1) h
        exact ⟨j, by omega, by omega, h3, h4⟩

theorem isSafeLoop_total (k c : Nat) (adj : List (List Int)) (colors : List Nat) :
    ∀ (n i : Nat), (∀ j, i ≤ j → j < i + n → (getEntry adj k j).isSome ∧ j < colors.length) →
      ∃ b, isSafeLoop k c adj colors i n = some b := by
  intro n
  induction n with
  | zero => intro i _; exact ⟨true, rfl⟩
  | succ n ih =>
    intro i h
    obtain ⟨h1, h2⟩ := h i (le_refl _) (by omega)
    have hrec := ih (i + 1) (fun j hj1 hj2 => h j (by omega) (by omega))
    rw [isSafeLoop]
    cases he : getEntry adj k i with
    | none => rw [he] at h1; simp at h1
    | some a =>
      simp only
      by_cases ha : a = 1
      · rw [if_pos ha]
        have hc : colors[i]? = some (colors[i]) := List.getElem?_eq_getElem h2
        rw [hc]
        simp only
        by_cases hcc : c = colors[i]
        · rw [if_pos hcc]; exact ⟨false, rfl⟩
        · rw [if_neg hcc]; exact hrec
      · rw [if_neg ha]; exact hrec

theorem getEntry_isSome {v : Nat} {adj : List (List Int)} (hm : IsMatrix v adj) {k i : Nat}
    (hk : k < v) (hi : i < v) : (getEntry adj k i).isSome := by
  obtain ⟨h1, h2⟩ := hm
  have hk' : k < adj.length := by omega
  have hrow : adj[k]? = some adj[k] := List.getElem?_eq_getElem hk'
  have hlen : (adj[k]).length = v := h2 _ (List.getElem_mem hk')
  have hi' : i < (adj[k]).length := by omega
  simp [getEntry, hrow, List.getElem?_eq_getElem hi']

/-! ## Lemmas on the `colors` array -/

theorem getD_set (l : List Nat) (k c i : Nat) :
    (l.set k c).getD i 0 = if i = k ∧ k < l.length then c else l.getD i 0 := by
  simp only [List.getD_eq_getElem?_getD, List.getElem?_set]
  by_cases h : k = i
  · subst h
    by_cases h2 : k < l.length
    · simp [h2]
    · simp [h2]
      rw [List.getElem?_eq_none (by omega)]
      rfl
  · have : ¬ i = k := fun h' => h h'.symm
    simp [h, this]

theorem set_set_zero (l : List Nat) (k c : Nat) (h0 : l.getD k 0 = 0) :
    (l.set k c).set k 0 = l := by
  rw [List.set_set]
  apply List.ext_getElem?
  intro i
  rw [List.getElem?_set]
  by_cases h : k = i
  · subst h
    rw [if_pos rfl]
    by_cases h2 : k < l.length
    · rw [if_pos h2]
      rw [List.getD_eq_getElem?_getD, List.getElem?_eq_getElem h2] at h0
      rw [List.getElem?_eq_getElem h2]
      simp at h0
      rw [h0]
    · rw [if_neg h2, List.getElem?_eq_none (by omega)]
  · rw [if_neg h]

theorem getElem?_of_getD_ne {l : List Nat} {j c : Nat} (h : l[j]? ≠ some c) (hj : j < l.length) :
    l.getD j 0 ≠ c := by
  rw [List.getD_eq_getElem?_getD, List.getElem?_eq_getElem hj]
  rw [List.getElem?_eq_getElem hj] at h
  intro h'
  apply h
  simp at h'
  rw [h']

theorem getD_of_getElem? {l : List Nat} {j c : Nat} (h : l[j]? = some c) : l.getD j 0 = c := by
  rw [List.getD_eq_getElem?_getD, h]; rfl

theorem getD_replicate_zero (v i : Nat) : (List.replicate v 0).getD i 0 = 0 := by
  rw [List.getD_eq_getElem?_getD, List.getElem?_replicate]
  by_cases h : i < v
  · rw [if_pos h]; rfl
  · rw [if_neg h]; rfl

/-! ## The search invariant of `graphColor` -/

theorem searchState_step {adj : List (List Int)} {v m k c : Nat} {colors : List Nat}
    (hk : k < v) (hlen : colors.length = v) (hst : SearchState adj m k colors)
    (hc1 : 1 ≤ c) (hc2 : c ≤ m) (hsafe : isSafe k c adj v colors = some true) :
    SearchState adj m (k + 1) (colors.set k c) := by
  obtain ⟨hp, hz⟩ := hst
  constructor
  · intro i hi
    simp only [getD_set]
    by_cases hik : i = k
    · subst hik
      rw [if_pos ⟨rfl, by omega⟩]
      refine ⟨⟨hc1, hc2⟩, ?_⟩
      intro j hj hadj
      rw [if_neg (by omega)]
      have := isSafeLoop_true i c adj colors v 0 hsafe j (by omega) (by omega) hadj
      exact fun h => getElem?_of_getD_ne this (by omega) h.symm
    · rw [if_neg (by omega)]
      obtain ⟨h1, h2⟩ := hp i (by omega)
      refine ⟨h1, ?_⟩
      intro j hj hadj
      rw [if_neg (by omega)]
      exact h2 j hj hadj
  · intro i hi
    rw [getD_set, if_neg (by omega)]
    exact hz i (by omega)

theorem colorLoop_post {adj : List (List Int)} {v m k : Nat}
    (next : List Nat → Option (Bool × List Nat)) (hk : k < v)
    (hnext : ∀ colors1 r, colors1.length = v → SearchState adj m (k + 1) colors1 →
      next colors1 = some r → SearchPost adj v m (k + 1) colors1 r) :
    ∀ (n c : Nat) (colors : List Nat) (r : Bool × List Nat), 1 ≤ c → c + n = m + 1 →
      colors.length = v → SearchState adj m k colors →
      colorLoop next k adj v c n colors = some r →
      r.2.length = v ∧
      (r.1 = true → SearchState adj m v r.2 ∧ ∀ i, i < k → r.2.getD i 0 = colors.getD i 0) ∧
      (r.1 = false → r.2 = colors ∧
        ∀ f, PrefixValid adj m v f → (∀ i, i < k → f i = colors.getD i 0) → c ≤ f k → False) := by
  intro n
  induction n with
  | zero =>
    intro c colors r hc hcn hlen hst h
    simp only [colorLoop, Option.some.injEq] at h
    subst h
    refine ⟨hlen, by simp, ?_⟩
    intro _
    refine ⟨rfl, ?_⟩
    intro f hf _ hcf
    have := (hf k hk).1.2
    omega
  | succ n ih =>
    intro c colors r hc hcn hlen hst h
    rw [colorLoop] at h
    cases hs : isSafe k c adj v colors with
    | none => rw [hs] at h; simp at h
    | some b =>
      cases b with
      | false =>
        rw [hs] at h
        simp only at h
        obtain ⟨h1, h2, h3⟩ := ih (c + 1) colors r (by omega) (by omega) hlen hst h
        refine ⟨h1, h2, ?_⟩
        intro hr
        obtain ⟨h4, h5⟩ := h3 hr
        refine ⟨h4, ?_⟩
        intro f hf hagree hcf
        by_cases hfk : f k = c
        · obtain ⟨j, _, hj2, hj3, hj4⟩ := isSafeLoop_false k c adj colors v 0 hs
          have hcj : colors.getD j 0 = c := getD_of_getElem? hj4
          have hjk : j < k := by
            by_contra hge
            have := hst.2 j (by omega)
            omega
          have := (hf k hk).2 j hjk hj3
          rw [hagree j hjk, hcj] at this
          exact this hfk
        · exact h5 f hf hagree (by omega)
      | true =>
        rw [hs] at h
        simp only at h
        have hkl : k < colors.length := by omega
        simp only [setColor, if_pos hkl] at h
        have hst1 : SearchState adj m (k + 1) (colors.set k c) :=
          searchState_step hk hlen hst hc (by omega) hs
        have hlen1 : (colors.set k c).length = v := by rw [List.length_set]; exact hlen
        cases hn : next (colors.set k c) with
        | none => rw [hn] at h; simp at h
        | some r1 =>
          obtain ⟨b1, cs1⟩ := r1
          have hpost := hnext _ _ hlen1 hst1 hn
          obtain ⟨p1, p2, p3⟩ := hpost
          cases b1 with
          | true =>
            rw [hn] at h
            simp only [Option.some.injEq] at h
            subst h
            refine ⟨p1, ?_, by simp⟩
            intro _
            obtain ⟨q1, q2⟩ := p2 rfl
            refine ⟨q1, ?_⟩
            intro i hi
            rw [q2 i (by omega), getD_set, if_neg (by omega)]
          | false =>
            rw [hn] at h
            simp only at h
            obtain ⟨q1, q2⟩ := p3 rfl
            simp only at q1
            subst q1
            have hkl1 : k < (colors.set k c).length := by omega
            rw [if_pos hkl1, set_set_zero colors k c (hst.2 k (le_refl _))] at h
            simp only at h
            obtain ⟨h1, h2, h3⟩ := ih (c + 1) colors r (by omega) (by omega) hlen hst h
            refine ⟨h1, h2, ?_⟩
            intro hr
            obtain ⟨h4, h5⟩ := h3 hr
            refine ⟨h4, ?_⟩
            intro f hf hagree hcf
            by_cases hfk : f k = c
            · apply q2 f hf
              intro i hi
              rw [getD_set]
              by_cases hik : i = k
              · subst hik; rw [if_pos ⟨rfl, hkl⟩]; exact hfk
              · rw [if_neg (by omega)]; exact hagree i (by omega)
            · exact h5 f hf hagree (by omega)

theorem graphColor_post {adj : List (List Int)} {v m : Nat} :
    ∀ (fuel k : Nat) (colors : List Nat) (r : Bool × List Nat), k ≤ v →
      colors.length = v → SearchState adj m k colors →
      graphColor fuel k m colors adj v = some r → SearchPost adj v m k colors r := by
  intro fuel
  induction fuel with
  | zero => intro k colors r _ _ _ h; simp [graphColor] at h
  | succ fuel ih =>
    intro k colors r hk hlen hst h
    rw [graphColor] at h
    by_cases hkv : k = v
    · rw [if_pos hkv] at h
      simp only [Option.some.injEq] at h
      subst h
      subst hkv
      exact ⟨hlen, fun _ => ⟨hst, fun _ _ => rfl⟩, by simp⟩
    · rw [if_neg hkv] at h
      have hk' : k < v := by omega
      obtain ⟨h1, h2, h3⟩ := colorLoop_post (fun cs => graphColor fuel (k + 1) m cs adj v) hk'
        (fun colors1 r1 hl1 hs1 hr1 => ih (k + 1) colors1 r1 (by omega) hl1 hs1 hr1)
        m 1 colors r (le_refl _) (by omega) hlen hst h
      refine ⟨h1, h2, ?_⟩
      intro hr
      obtain ⟨h4, h5⟩ := h3 hr
      exact ⟨h4, fun f hf hagree => h5 f hf hagree (hf k hk').1.1⟩

/-! ## Termination and index safety of the search -/

theorem colorLoop_total {adj : List (List Int)} {v k : Nat}
    (next : List Nat → Option (Bool × List Nat)) (hk : k < v) (hm : IsMatrix v adj)
    (hnext : ∀ colors1, colors1.length = v → ∃ r, next colors1 = some r ∧ r.2.length = v) :
    ∀ (n c : Nat) (colors : List Nat), colors.length = v →
      ∃ r, colorLoop next k adj v c n colors = some r ∧ r.2.length = v := by
  intro n
  induction n with
  | zero => intro c colors hlen; exact ⟨(false, colors), rfl, hlen⟩
  | succ n ih =>
    intro c colors hlen
    rw [colorLoop]
    obtain ⟨b, hb⟩ := isSafeLoop_total k c adj colors v 0
      (fun j _ hj => ⟨getEntry_isSome hm hk (by omega), by omega⟩)
    have hs : isSafe k c adj v colors = some b := hb
    rw [hs]
    cases b with
    | false => exact ih (c + 1) colors hlen
    | true =>
      simp only
      have hkl : k < colors.length := by omega
      simp only [setColor, if_pos hkl]
      have hlen1 : (colors.set k c).length = v := by rw [List.length_set]; exact hlen
      obtain ⟨⟨b1, cs1⟩, hr1, hl1⟩ := hnext _ hlen1
      rw [hr1]
      cases b1 with
      | true => exact ⟨(true, cs1), rfl, hl1⟩
      | false =>
        simp only at hl1 ⊢
        have hkl1 : k < cs1.length := by omega
        rw [if_pos hkl1]
        exact ih (c + 1) (cs1.set k 0) (by rw [List.length_set]; exact hl1)

theorem graphColor_total {adj : List (List Int)} {v : Nat} (m : Nat) (hm : IsMatrix v adj) :
    ∀ (fuel k : Nat) (colors : List Nat), k ≤ v → v - k < fuel → colors.length = v →
      ∃ r, graphColor fuel k m colors adj v = some r ∧ r.2.length = v := by
  intro fuel
  induction fuel with
  | zero => intro k colors _ h _; omega
  | succ fuel ih =>
    intro k colors hk hf hlen
    rw [graphColor]
    by_cases hkv : k = v
    · rw [if_pos hkv]; exact ⟨(true, colors), rfl, hlen⟩
    · rw [if_neg hkv]
      exact colorLoop_total _ (by omega) hm
        (fun colors1 hl1 => ih (k + 1) colors1 (by omega) (by omega) hl1) m 1 colors hlen

theorem searchState_zeros (adj : List (List Int)) (m v : Nat) :
    SearchState adj m 0 (List.replicate v 0) :=
  ⟨fun i hi => by omega, fun i _ => getD_replicate_zero v i⟩

theorem validColoring_of_searchState {adj : List (List Int)} {v m : Nat} {cs : List Nat}
    (hsym : Symmetric v adj) (h : SearchState adj m v cs) :
    ValidColoring adj v m (fun i => cs.getD i 0) := by
  intro i hi
  refine ⟨(h.1 i hi).1, ?_⟩
  intro j hj hij hadj
  rcases Nat.lt_or_gt_of_ne hij with hlt | hgt
  · have := (h.1 j hj).2 i hlt (by rw [← hsym i hi j hj]; exact hadj)
    exact fun e => this e.symm
  · exact (h.1 i hi).2 j hgt hadj

theorem prefixValid_of_validColoring {adj : List (List Int)} {v m : Nat} {f : Nat → Nat}
    (h : ValidColoring adj v m f) : PrefixValid adj m v f := by
  intro i hi
  refine ⟨(h i hi).1, ?_⟩
  intro j hj hadj
  exact (h i hi).2 j (by omega) (by omega) hadj

/-! ## Lemmas on `buildAdjacencyMatrix` -/

theorem getEntry_set {adj : List (List Int)} {r : Nat} {row : List Int}
    (hrow : adj[r]? = some row) (c : Nat) (hc : c < row.length) (x : Int) (a b : Nat) :
    getEntry (adj.set r (row.set c x)) a b =
      if a = r ∧ b = c then some x else getEntry adj a b := by
  have hr : r < adj.length := by
    by_contra h
    rw [List.getElem?_eq_none (by omega)] at hrow
    exact Option.noConfusion hrow
  unfold getEntry
  rw [List.getElem?_set]
  by_cases har : r = a
  · subst har
    by_cases hbc : c = b
    · subst hbc; simp [hr, hc]
    · have hbc' : ¬ b = c := fun h => hbc h.symm
      simp [hr, hrow, List.getElem?_set, hbc, hbc']
  · have har' : ¬ a = r := fun h => har h.symm
    simp [har, har']

theorem isMatrix_set {n : Nat} {adj : List (List Int)} (hm : IsMatrix n adj) (r : Nat)
    (row : List Int) (hrow : row.length = n) : IsMatrix n (adj.set r row) := by
  refine ⟨by rw [List.length_set]; exact hm.1, ?_⟩
  intro row' hmem
  rcases List.mem_or_eq_of_mem_set hmem with h | h
  · exact hm.2 _ h
  · rw [h]; exact hrow

theorem setEntry_spec {n : Nat} {adj : List (List Int)} (hm : IsMatrix n adj) {r c : Nat}
    (hr : r < n) (hc : c < n) :
    ∃ adj1, setEntry adj r c 1 = some adj1 ∧ IsMatrix n adj1 ∧
      Updated adj adj1 (fun a b => a = r ∧ b = c) := by
  have hr' : r < adj.length := by rw [hm.1]; exact hr
  have hrow : adj[r]? = some adj[r] := List.getElem?_eq_getElem hr'
  have hlen : (adj[r]).length = n := hm.2 _ (List.getElem_mem hr')
  have hc' : c < (adj[r]).length := by omega
  refine ⟨adj.set r ((adj[r]).set c 1), ?_, ?_, ?_⟩
  · simp only [setEntry, hrow, if_pos hc']
  · exact isMatrix_set hm r _ (by rw [List.length_set]; exact hlen)
  · intro a b
    rw [getEntry_set hrow c hc' 1 a b]
    constructor
    · intro h; rw [if_pos h]
    · intro h; rw [if_neg h]

theorem updated_refl (adj : List (List Int)) : Updated adj adj (fun _ _ => False) :=
  fun _ _ => ⟨fun h => h.elim, fun _ => rfl⟩

theorem updated_trans {adj1 adj2 adj3 : List (List Int)} {S T : Nat → Nat → Prop}
    (h1 : Updated adj1 adj2 S) (h2 : Updated adj2 adj3 T) :
    Updated adj1 adj3 (fun a b => S a b ∨ T a b) := by
  intro a b
  by_cases hT : T a b
  · exact ⟨fun _ => (h2 a b).1 hT, fun h => (h (Or.inr hT)).elim⟩
  · constructor
    · intro h
      rcases h with h | h
      · rw [(h2 a b).2 hT]; exact (h1 a b).1 h
      · exact (hT h).elim
    · intro h
      rw [(h2 a b).2 hT]
      exact (h1 a b).2 (fun hS => h (Or.inl hS))

theorem updated_congr {adj1 adj2 : List (List Int)} {S T : Nat → Nat → Prop}
    (h : Updated adj1 adj2 S) (hST : ∀ a b, S a b ↔ T a b) : Updated adj1 adj2 T :=
  fun a b => ⟨fun hT => (h a b).1 ((hST a b).2 hT), fun hT => (h a b).2 (fun hS => hT ((hST a b).1 hS))⟩

theorem markLoop_spec {n i : Nat} (tok : String) (hi : i < n) :
    ∀ (rows : V2D) (k0 : Nat) (adj : List (List Int)), k0 + rows.length ≤ n → IsMatrix n adj →
      ∃ adj1, markLoop i tok rows k0 adj = some adj1 ∧ IsMatrix n adj1 ∧
        Updated adj adj1 (fun a b => ∃ k ck, rows[k]? = some ck ∧ tok ∈ ck ∧
          ((a = k0 + k ∧ b = i) ∨ (a = i ∧ b = k0 + k))) := by
  intro rows
  induction rows with
  | nil =>
    intro k0 adj _ hm
    refine ⟨adj, rfl, hm, updated_congr (updated_refl adj) ?_⟩
    intro a b
    simp
  | cons ck rest ih =>
    intro k0 adj hk hm
    simp only [List.length_cons] at hk
    rw [markLoop]
    by_cases hc : ck.contains tok = true
    · rw [if_pos hc]
      obtain ⟨adj1, e1, m1, u1⟩ := setEntry_spec hm (show k0 < n by omega) hi
      obtain ⟨adj2, e2, m2, u2⟩ := setEntry_spec m1 hi (show k0 < n by omega)
      obtain ⟨adj3, e3, m3, u3⟩ := ih (k0 + 1) adj2 (by omega) m2
      rw [e1]; simp only
      rw [e2]; simp only
      refine ⟨adj3, e3, m3, updated_congr (updated_trans (updated_trans u1 u2) u3) ?_⟩
      intro a b
      have hmem : tok ∈ ck := by simpa using hc
      constructor
      · rintro ((h | h) | ⟨k, ck', h1, h2, h3⟩)
        · exact ⟨0, ck, List.getElem?_cons_zero, hmem, Or.inl (by omega)⟩
        · exact ⟨0, ck, List.getElem?_cons_zero, hmem, Or.inr (by omega)⟩
        · refine ⟨k + 1, ck', by simpa using h1, h2, ?_⟩
          rcases h3 with h3 | h3
          · exact Or.inl (by omega)
          · exact Or.inr (by omega)
      · rintro ⟨k, ck', h1, h2, h3⟩
        cases k with
        | zero =>
          rcases h3 with h3 | h3
          · exact Or.inl (Or.inl (by omega))
          · exact Or.inl (Or.inr (by omega))
        | succ k =>
          refine Or.inr ⟨k, ck', by simpa using h1, h2, ?_⟩
          rcases h3 with h3 | h3
          · exact Or.inl (by omega)
          · exact Or.inr (by omega)
    · rw [if_neg hc]
      obtain ⟨adj3, e3, m3, u3⟩ := ih (k0 + 1) adj (by omega) hm
      refine ⟨adj3, e3, m3, updated_congr u3 ?_⟩
      intro a b
      have hmem : ¬ tok ∈ ck := by simpa using hc
      constructor
      · rintro ⟨k, ck', h1, h2, h3⟩
        refine ⟨k + 1, ck', by simpa using h1, h2, ?_⟩
        rcases h3 with h3 | h3
        · exact Or.inl (by omega)
        · exact Or.inr (by omega)
      · rintro ⟨k, ck', h1, h2, h3⟩
        cases k with
        | zero =>
          simp only [List.getElem?_cons_zero, Option.some.injEq] at h1
          subst h1
          exact (hmem h2).elim
        | succ k =>
          refine ⟨k, ck', by simpa using h1, h2, ?_⟩
          rcases h3 with h3 | h3
          · exact Or.inl (by omega)
          · exact Or.inr (by omega)

theorem tokenLoop_spec {n i : Nat} (courses : V2D) (hi : i < n) (hn : courses.length ≤ n) :
    ∀ (toks : List String) (adj : List (List Int)), IsMatrix n adj →
      ∃ adj1, tokenLoop courses i toks adj = some adj1 ∧ IsMatrix n adj1 ∧
        Updated adj adj1 (fun a b => ∃ tok, tok ∈ toks ∧ ∃ k ck, courses[k]? = some ck ∧
          tok ∈ ck ∧ ((a = k ∧ b = i) ∨ (a = i ∧ b = k))) := by
  intro toks
  induction toks with
  | nil =>
    intro adj hm
    refine ⟨adj, rfl, hm, updated_congr (updated_refl adj) ?_⟩
    intro a b
    simp
  | cons tok rest ih =>
    intro adj hm
    rw [tokenLoop]
    obtain ⟨adj1, e1, m1, u1⟩ := markLoop_spec tok hi courses 0 adj (by omega) hm
    obtain ⟨adj2, e2, m2, u2⟩ := ih adj1 m1
    rw [e1]; simp only
    refine ⟨adj2, e2, m2, updated_congr (updated_trans u1 u2) ?_⟩
    intro a b
    constructor
    · rintro (⟨k, ck, h1, h2, h3⟩ | ⟨t, ht, k, ck, h1, h2, h3⟩)
      · exact ⟨tok, List.mem_cons_self _ _, k, ck, h1, h2, by simpa using h3⟩
      · exact ⟨t, List.mem_cons_of_mem _ ht, k, ck, h1, h2, h3⟩
    · rintro ⟨t, ht, k, ck, h1, h2, h3⟩
      rcases List.mem_cons.1 ht with h | h
      · subst h
        exact Or.inl ⟨k, ck, h1, h2, by simpa using h3⟩
      · exact Or.inr ⟨t, h, k, ck, h1, h2, h3⟩

theorem courseLoop_spec {n : Nat} (courses : V2D) (hn : courses.length ≤ n) :
    ∀ (rows : V2D) (i0 : Nat) (adj : List (List Int)), i0 + rows.length ≤ n → IsMatrix n adj →
      ∃ adj1, courseLoop courses rows i0 adj = some adj1 ∧ IsMatrix n adj1 ∧
        Updated adj adj1 (fun a b => ∃ i ci, rows[i]? = some ci ∧ ∃ tok, tok ∈ ci.drop 1 ∧
          ∃ k ck, courses[k]? = some ck ∧ tok ∈ ck ∧
            ((a = k ∧ b = i0 + i) ∨ (a = i0 + i ∧ b = k))) := by
  intro rows
  induction rows with
  | nil =>
    intro i0 adj _ hm
    refine ⟨adj, rfl, hm, updated_congr (updated_refl adj) ?_⟩
    intro a b
    simp
  | cons ci rest ih =>
    intro i0 adj hi hm
    simp only [List.length_cons] at hi
    rw [courseLoop]
    obtain ⟨adj1, e1, m1, u1⟩ := tokenLoop_spec courses (show i0 < n by omega) hn (ci.drop 1) adj hm
    obtain ⟨adj2, e2, m2, u2⟩ := ih (i0 + 1) adj1 (by omega) m1
    rw [e1]; simp only
    refine ⟨adj2, e2, m2, updated_congr (updated_trans u1 u2) ?_⟩
    intro a b
    constructor
    · rintro (⟨t, ht, k, ck, h1, h2, h3⟩ | ⟨i, ci', hi', t, ht, k, ck, h1, h2, h3⟩)
      · exact ⟨0, ci, List.getElem?_cons_zero, t, ht, k, ck, h1, h2, by simpa using h3⟩
      · refine ⟨i + 1, ci', by simpa using hi', t, ht, k, ck, h1, h2, ?_⟩
        rcases h3 with h3 | h3
        · exact Or.inl (by omega)
        · exact Or.inr (by omega)
    · rintro ⟨i, ci', hi', t, ht, k, ck, h1, h2, h3⟩
      cases i with
      | zero =>
        simp only [List.getElem?_cons_zero, Option.some.injEq] at hi'
        subst hi'
        exact Or.inl ⟨t, ht, k, ck, h1, h2, by simpa using h3⟩
      | succ i =>
        refine Or.inr ⟨i, ci', by simpa using hi', t, ht, k, ck, h1, h2, ?_⟩
        rcases h3 with h3 | h3
        · exact Or.inl (by omega)
        · exact Or.inr (by omega)

theorem courseOrderLoop_spec :
    ∀ (rows : V2D) (acc co : List String),
      courseOrderLoop rows acc = some co ↔ RowsNonEmpty rows ∧ co = acc ++ keys rows := by
  intro rows
  induction rows with
  | nil =>
    intro acc co
    simp only [courseOrderLoop, keys, List.filterMap_nil, List.append_nil, Option.some.injEq]
    constructor
    · intro h; exact ⟨fun row hrow => (by cases hrow), h.symm⟩
    · intro h; exact h.2.symm
  | cons row rest ih =>
    intro acc co
    cases row with
    | nil =>
      simp only [courseOrderLoop, List.getElem?_nil]
      constructor
      · intro h; exact Option.noConfusion h
      · intro h; exact (h.1 [] (List.mem_cons_self _ _) rfl).elim
    | cons key toks =>
      simp only [courseOrderLoop, List.getElem?_cons_zero]
      rw [ih]
      have hk : keys ((key :: toks) :: rest) = key :: keys rest := by
        simp [keys, List.filterMap_cons]
      rw [hk]
      constructor
      · rintro ⟨h1, h2⟩
        refine ⟨?_, by rw [h2]; simp⟩
        intro r hr
        rcases List.mem_cons.1 hr with h | h
        · rw [h]; exact List.cons_ne_nil _ _
        · exact h1 r h
      · rintro ⟨h1, h2⟩
        exact ⟨fun r hr => h1 r (List.mem_cons_of_mem _ hr), by rw [h2]; simp⟩

theorem keys_length {t : V2D} (h : RowsNonEmpty t) : (keys t).length = t.length := by
  induction t with
  | nil => rfl
  | cons row rest ih =>
    cases row with
    | nil => exact (h [] (List.mem_cons_self _ _) rfl).elim
    | cons key toks =>
      have hk : keys ((key :: toks) :: rest) = key :: keys rest := by
        simp [keys, List.filterMap_cons]
      rw [hk, List.length_cons, List.length_cons, ih (fun r hr => h r (List.mem_cons_of_mem _ hr))]

theorem isMatrix_zero (n : Nat) : IsMatrix n (List.replicate n (List.replicate n (0 : Int))) := by
  refine ⟨List.length_replicate _ _, ?_⟩
  intro row hrow
  rw [(List.mem_replicate.1 hrow).2]
  exact List.length_replicate _ _

theorem getEntry_zero {n a b : Nat} (ha : a < n) (hb : b < n) :
    getEntry (List.replicate n (List.replicate n (0 : Int))) a b = some 0 := by
  simp [getEntry, List.getElem?_replicate, ha, hb]

/-- The result of `buildAdjacencyMatrix` on a table with non-empty rows: an
`n`-by-`n` matrix whose entry `(a, b)` is `1` when a roster token of one of the
two courses occurs in the record of the other, and `0` otherwise. -/
theorem buildAdjacencyMatrix_spec {courses : V2D} (hne : RowsNonEmpty courses) :
    ∃ adj, buildAdjacencyMatrix courses = some adj ∧ IsMatrix courses.length adj ∧
      ∀ a, a < courses.length → ∀ b, b < courses.length →
        ((Hit courses b a ∨ Hit courses a b) → getEntry adj a b = some 1) ∧
        (¬ (Hit courses b a ∨ Hit courses a b) → getEntry adj a b = some 0) := by
  have hco : courseOrderLoop courses [] = some (keys courses) :=
    (courseOrderLoop_spec courses [] (keys courses)).2 ⟨hne, by simp⟩
  obtain ⟨adj, e, m, u⟩ := courseLoop_spec courses (le_refl _) courses 0
    (List.replicate courses.length (List.replicate courses.length 0)) (by omega)
    (isMatrix_zero _)
  refine ⟨adj, ?_, m, ?_⟩
  · simp only [buildAdjacencyMatrix, hco, keys_length hne]
    exact e
  · intro a ha b hb
    have hS : (∃ i ci, courses[i]? = some ci ∧ ∃ tok, tok ∈ ci.drop 1 ∧
          ∃ k ck, courses[k]? = some ck ∧ tok ∈ ck ∧
            ((a = k ∧ b = 0 + i) ∨ (a = 0 + i ∧ b = k))) ↔
        (Hit courses b a ∨ Hit courses a b) := by
      constructor
      · rintro ⟨i, ci, h1, tok, h2, k, ck, h3, h4, h5⟩
        rcases h5 with ⟨h5, h6⟩ | ⟨h5, h6⟩
        · left
          have : b = i := by omega
          subst this; subst h5
          exact ⟨ci, ck, h1, h3, tok, h2, h4⟩
        · right
          have : a = i := by omega
          subst this; subst h6
          exact ⟨ci, ck, h1, h3, tok, h2, h4⟩
      · rintro (⟨ci, ck, h1, h3, tok, h2, h4⟩ | ⟨ci, ck, h1, h3, tok, h2, h4⟩)
        · exact ⟨b, ci, h1, tok, h2, a, ck, h3, h4, Or.inl ⟨rfl, by omega⟩⟩
        · exact ⟨a, ci, h1, tok, h2, b, ck, h3, h4, Or.inr ⟨by omega, rfl⟩⟩
    constructor
    · intro h
      exact (u a b).1 (hS.2 h)
    · intro h
      rw [(u a b).2 (fun hs => h (hS.1 hs))]
      exact getEntry_zero ha hb

theorem buildAdjacencyMatrix_symmetric {courses : V2D} {adj : List (List Int)}
    (hne : RowsNonEmpty courses) (h : buildAdjacencyMatrix courses = some adj) :
    Symmetric courses.length adj := by
  obtain ⟨adj', e, _, hc⟩ := buildAdjacencyMatrix_spec hne
  rw [h] at e
  injection e with e
  subst e
  intro i hi j hj
  by_cases hh : Hit courses j i ∨ Hit courses i j
  · rw [(hc i hi j hj).1 hh, (hc j hj i hi).1 hh.symm]
  · rw [(hc i hi j hj).2 hh, (hc j hj i hi).2 (fun h' => hh h'.symm)]

/-! ## Lemmas on `schedule` -/

theorem slotCourses_nil_right (co : List String) (slot : Nat) : slotCourses co [] slot = [] := by
  simp [slotCourses]

theorem slotCourses_cons (key : String) (co : List String) (ca : Nat) (colors : List Nat)
    (slot : Nat) :
    slotCourses (key :: co) (ca :: colors) slot =
      if ca = slot then key :: slotCourses co colors slot else slotCourses co colors slot := by
  by_cases h : ca = slot
  · simp [slotCourses, List.filter_cons, h]
  · simp [slotCourses, List.filter_cons, h]

theorem slotLoop_spec (course_order : List String) (slot : Nat) :
    ∀ (rest : List Nat) (pre co_rest : List String) (temp : List String),
      course_order = pre ++ co_rest → rest.length ≤ co_rest.length →
      slotLoop course_order slot rest pre.length temp =
        some (temp ++ slotCourses co_rest rest slot) := by
  intro rest
  induction rest with
  | nil =>
    intro pre co_rest temp _ _
    simp [slotLoop, slotCourses_nil_right]
  | cons ca rest ih =>
    intro pre co_rest temp hco hlen
    cases co_rest with
    | nil => simp at hlen
    | cons key co' =>
      simp only [List.length_cons] at hlen
      have hget : course_order[pre.length]? = some key := by
        rw [hco, List.getElem?_append_right (le_refl _), Nat.sub_self]
        exact List.getElem?_cons_zero
      have hco' : course_order = (pre ++ [key]) ++ co' := by rw [hco]; simp
      have hpl : (pre ++ [key]).length = pre.length + 1 := by simp
      rw [slotLoop, slotCourses_cons]
      by_cases h : ca = slot
      · rw [if_pos h, if_pos h, hget]
        simp only
        rw [← hpl, ih (pre ++ [key]) co' (temp ++ [key]) hco' (by omega)]
        simp
      · rw [if_neg h, if_neg h]
        rw [← hpl, ih (pre ++ [key]) co' temp hco' (by omega)]

theorem rowLoop_spec (course_order : List String) (colors : List Nat)
    (hlen : colors.length ≤ course_order.length) :
    ∀ (ts : List String) (i : Nat) (ans : V2D),
      rowLoop course_order colors ts i ans = some (ans ++ rowsFrom course_order colors i ts) := by
  intro ts
  induction ts with
  | nil => intro i ans; simp [rowLoop, rowsFrom]
  | cons t rest ih =>
    intro i ans
    have h := slotLoop_spec course_order (i + 1) colors [] course_order [t] (by simp) hlen
    simp only [List.length_nil] at h
    rw [rowLoop, h]
    simp only
    rw [ih]
    simp [rowsFrom]

theorem rowsFrom_length (co : List String) (colors : List Nat) :
    ∀ (ts : List String) (i : Nat), (rowsFrom co colors i ts).length = ts.length := by
  intro ts
  induction ts with
  | nil => intro i; rfl
  | cons t rest ih => intro i; simp [rowsFrom, ih]

theorem rowsFrom_getElem? (co : List String) (colors : List Nat) :
    ∀ (ts : List String) (i0 i : Nat),
      (rowsFrom co colors i0 ts)[i]? =
        (ts[i]?).map (fun t => t :: slotCourses co colors (i0 + i + 1)) := by
  intro ts
  induction ts with
  | nil => intro i0 i; simp [rowsFrom]
  | cons t rest ih =>
    intro i0 i
    cases i with
    | zero => simp [rowsFrom]
    | succ i =>
      simp only [rowsFrom, List.getElem?_cons_succ]
      rw [ih (i0 + 1) i]
      have : i0 + 1 + i + 1 = i0 + (i + 1) + 1 := by omega
      rw [this]

theorem mem_rowsFrom {co : List String} {colors : List Nat} {ts : List String} {i0 : Nat}
    {row : List String} (h : row ∈ rowsFrom co colors i0 ts) :
    ∃ i t, ts[i]? = some t ∧ row = t :: slotCourses co colors (i0 + i + 1) := by
  obtain ⟨i, hi⟩ := List.mem_iff_getElem?.1 h
  rw [rowsFrom_getElem?] at hi
  cases ht : ts[i]? with
  | none => rw [ht] at hi; simp at hi
  | some t =>
    rw [ht] at hi
    simp only [Option.map_some', Option.some.injEq] at hi
    exact ⟨i, t, ht, hi.symm⟩

theorem mem_slotCourses {key : String} {slot : Nat} :
    ∀ (co : List String) (colors : List Nat),
      key ∈ slotCourses co colors slot ↔
        ∃ a : Nat, co[a]? = some key ∧ colors[a]? = some slot := by
  intro co
  induction co with
  | nil => intro colors; simp [slotCourses]
  | cons k co ih =>
    intro colors
    cases colors with
    | nil => simp [slotCourses]
    | cons ca colors =>
      rw [slotCourses_cons]
      constructor
      · intro h
        by_cases hc : ca = slot
        · rw [if_pos hc] at h
          rcases List.mem_cons.1 h with h | h
          · exact ⟨0, by simp [h], by simp [hc]⟩
          · obtain ⟨a, h1, h2⟩ := (ih colors).1 h
            exact ⟨a + 1, by simpa using h1, by simpa using h2⟩
        · rw [if_neg hc] at h
          obtain ⟨a, h1, h2⟩ := (ih colors).1 h
          exact ⟨a + 1, by simpa using h1, by simpa using h2⟩
      · rintro ⟨a, h1, h2⟩
        cases a with
        | zero =>
          simp only [List.getElem?_cons_zero, Option.some.injEq] at h1 h2
          rw [if_pos h2, h1]
          exact List.mem_cons_self _ _
        | succ a =>
          simp only [List.getElem?_cons_succ] at h1 h2
          have := (ih colors).2 ⟨a, h1, h2⟩
          by_cases hc : ca = slot
          · rw [if_pos hc]; exact List.mem_cons_of_mem _ this
          · rw [if_neg hc]; exact this

/-- What a result of `scheduleSearch` tells about the table and the search. -/
theorem scheduleSearch_spec {courses : V2D} {timeslots co : List String} {b : Bool}
    {cs : List Nat} (h : scheduleSearch courses timeslots = some (co, b, cs)) :
    RowsNonEmpty courses ∧ co = keys courses ∧
      ∃ adj, buildAdjacencyMatrix courses = some adj ∧
        graphColor (courses.length + 1) 0 timeslots.length (List.replicate courses.length 0)
          adj courses.length = some (b, cs) := by
  unfold scheduleSearch at h
  cases hco : courseOrderLoop courses [] with
  | none => rw [hco] at h; simp at h
  | some co' =>
    rw [hco] at h
    simp only at h
    obtain ⟨hne, hk⟩ := (courseOrderLoop_spec courses [] co').1 hco
    simp only [List.nil_append] at hk
    have hl : co'.length = courses.length := by rw [hk]; exact keys_length hne
    rw [hl] at h
    cases hadj : buildAdjacencyMatrix courses with
    | none => rw [hadj] at h; simp at h
    | some adj =>
      rw [hadj] at h
      simp only at h
      cases hg : graphColor (courses.length + 1) 0 timeslots.length
          (List.replicate courses.length 0) adj courses.length with
      | none => rw [hg] at h; simp at h
      | some r =>
        obtain ⟨b', cs'⟩ := r
        rw [hg] at h
        simp only [Option.some.injEq, Prod.mk.injEq] at h
        obtain ⟨h1, h2, h3⟩ := h
        subst h1 h2 h3
        exact ⟨hne, hk, adj, rfl, hg⟩

/-- The search of `schedule` returns on every table with non-empty rows. -/
theorem scheduleSearch_total {courses : V2D} (timeslots : List String)
    (hne : RowsNonEmpty courses) :
    ∃ b cs, scheduleSearch courses timeslots = some (keys courses, b, cs) := by
  have hco : courseOrderLoop courses [] = some (keys courses) :=
    (courseOrderLoop_spec courses [] (keys courses)).2 ⟨hne, by simp⟩
  obtain ⟨adj, hadj, hm, _⟩ := buildAdjacencyMatrix_spec hne
  obtain ⟨⟨b, cs⟩, hg, _⟩ := graphColor_total timeslots.length hm (courses.length + 1) 0
    (List.replicate courses.length 0) (Nat.zero_le _) (by omega) (List.length_replicate _ _)
  refine ⟨b, cs, ?_⟩
  simp only [scheduleSearch, hco, hadj, keys_length hne, hg]

/-- The state of `colors` after a search of `schedule`. -/
theorem scheduleSearch_post {courses : V2D} {timeslots co : List String} {b : Bool}
    {cs : List Nat} (h : scheduleSearch courses timeslots = some (co, b, cs)) :
    ∃ adj, buildAdjacencyMatrix courses = some adj ∧
      SearchPost adj courses.length timeslots.length 0 (List.replicate courses.length 0) (b, cs) := by
  obtain ⟨_, _, adj, hadj, hg⟩ := scheduleSearch_spec h
  exact ⟨adj, hadj, graphColor_post _ 0 _ _ (Nat.zero_le _) (List.length_replicate _ _)
    (searchState_zeros adj _ _) hg⟩

/-- The rows of a successful `schedule`. -/
theorem schedule_success {courses : V2D} {timeslots co : List String} {cs : List Nat}
    (h : scheduleSearch courses timeslots = some (co, true, cs)) :
    schedule courses timeslots = some (rowsFrom (keys courses) cs 0 timeslots) := by
  obtain ⟨hne, hk, _⟩ := scheduleSearch_spec h
  obtain ⟨adj, _, hpost⟩ := scheduleSearch_post h
  have hlen : cs.length ≤ (keys courses).length := by
    rw [keys_length hne]; exact le_of_eq hpost.1
  subst hk
  simp only [schedule, h]
  rw [rowLoop_spec _ _ hlen]
  simp

theorem schedule_failure {courses : V2D} {timeslots co : List String} {cs : List Nat}
    (h : scheduleSearch courses timeslots = some (co, false, cs)) :
    schedule courses timeslots = some [["-1"]] := by
  simp only [schedule, h]

theorem lt_length_of_getElem? {α : Type} {l : List α} {i : Nat} {x : α} (h : l[i]? = some x) :
    i < l.length :=
  (List.getElem?_eq_some.1 h).1

theorem noColoring_of_search_false {adj : List (List Int)} {v m fuel : Nat} {cs : List Nat}
    (h : graphColor fuel 0 m (List.replicate v 0) adj v = some (false, cs)) :
    ¬ ∃ f : Nat → Nat, ValidColoring adj v m f := by
  obtain ⟨_, _, h3⟩ := graphColor_post fuel 0 (List.replicate v 0) (false, cs) (Nat.zero_le v)
    (List.length_replicate _ _) (searchState_zeros adj m v) h
  rintro ⟨f, hf⟩
  exact (h3 rfl).2 f (prefixValid_of_validColoring hf) (fun i hi => by omega)

/-- After a successful search of `schedule` the colours are a valid colouring of
the conflict graph. -/
theorem scheduleSearch_valid {courses : V2D} {timeslots co : List String} {cs : List Nat}
    (h : scheduleSearch courses timeslots = some (co, true, cs)) :
    cs.length = courses.length ∧
      ∃ adj, buildAdjacencyMatrix courses = some adj ∧
        ValidColoring adj courses.length timeslots.length (fun i => cs.getD i 0) := by
  obtain ⟨hne, _, _⟩ := scheduleSearch_spec h
  obtain ⟨adj, hadj, hpost⟩ := scheduleSearch_post h
  exact ⟨hpost.1, adj, hadj,
    validColoring_of_searchState (buildAdjacencyMatrix_symmetric hne hadj) (hpost.2.1 rfl).1⟩

/-! ## Lemmas on `clean` -/

theorem cleanStudents_spec (ai cse : String) :
    ∀ (student : V2D) (tmp : List String),
      cleanStudents ai cse student tmp =
        tmp ++ List.replicate (student.countP (fun b => b.contains ai && b.contains cse)) ai := by
  intro student
  induction student with
  | nil => intro tmp; simp [cleanStudents]
  | cons b rest ih =>
    intro tmp
    rw [cleanStudents]
    by_cases h : (b.contains ai && b.contains cse) = true
    · rw [if_pos h, ih]
      simp only [List.countP_cons, h, if_true, List.replicate_succ]
      simp
    · rw [if_neg h, ih]
      simp only [List.countP_cons, h]
      simp

theorem cleanRoster_spec (cse : String) (student : V2D) :
    ∀ (toks tmp : List String),
      cleanRoster cse student toks tmp = tmp ++ keptTokens cse student toks := by
  intro toks
  induction toks with
  | nil => intro tmp; simp [cleanRoster, keptTokens]
  | cons ai rest ih =>
    intro tmp
    rw [cleanRoster, ih, cleanStudents_spec, keptTokens]
    simp

theorem keeps_iff (student : V2D) (cse t : String) :
    keeps student cse t = true ↔ ∃ b ∈ student, t ∈ b ∧ cse ∈ b := by
  simp [keeps]

theorem mem_keptTokens (cse : String) (student : V2D) (t : String) :
    ∀ (toks : List String),
      t ∈ keptTokens cse student toks ↔ t ∈ toks ∧ ∃ b ∈ student, t ∈ b ∧ cse ∈ b := by
  intro toks
  induction toks with
  | nil => simp [keptTokens]
  | cons ai rest ih =>
    rw [keptTokens, List.mem_append, ih, List.mem_replicate, List.mem_cons]
    constructor
    · rintro (⟨h1, h2⟩ | ⟨h1, h2⟩)
      · subst h2
        refine ⟨Or.inl rfl, ?_⟩
        have hpos : 0 < student.countP (fun b => b.contains t && b.contains cse) := by omega
        obtain ⟨b, hb, hc⟩ := List.countP_pos_iff.1 hpos
        exact ⟨b, hb, by simpa using hc⟩
      · exact ⟨Or.inr h1, h2⟩
    · rintro ⟨h1 | h1, b, hb, hc⟩
      · subst h1
        left
        refine ⟨?_, rfl⟩
        have : 0 < student.countP (fun b => b.contains t && b.contains cse) :=
          List.countP_pos_iff.2 ⟨b, hb, by simpa using hc⟩
        omega
      · exact Or.inr ⟨h1, b, hb, hc⟩

theorem keptTokens_eq_nil_iff (cse : String) (student : V2D) (toks : List String) :
    keptTokens cse student toks = [] ↔ toks.any (fun t => keeps student cse t) = false := by
  rw [List.eq_nil_iff_forall_not_mem]
  constructor
  · intro h
    rw [List.any_eq_false]
    intro t ht hk
    exact h t ((mem_keptTokens cse student t toks).2 ⟨ht, (keeps_iff student cse t).1 hk⟩)
  · intro h t ht
    obtain ⟨h1, h2⟩ := (mem_keptTokens cse student t toks).1 ht
    rw [List.any_eq_false] at h
    exact h t h1 ((keeps_iff student cse t).2 h2)

theorem cleanRow_isSome (student : V2D) (a : List String) :
    (cleanRow student a).isSome = survives student a := by
  cases a with
  | nil => rfl
  | cons cse toks =>
    simp only [cleanRow, survives]
    by_cases h : keptTokens cse student toks = []
    · rw [if_pos h, (keptTokens_eq_nil_iff cse student toks).1 h]; rfl
    · rw [if_neg h]
      cases hany : toks.any (fun t => keeps student cse t) with
      | true => rfl
      | false => exact (h ((keptTokens_eq_nil_iff cse student toks).2 hany)).elim

theorem cleanLoop_spec (student : V2D) :
    ∀ (rows vec : V2D), RowsNonEmpty rows →
      cleanLoop student rows vec = some (vec ++ rows.filterMap (cleanRow student)) := by
  intro rows
  induction rows with
  | nil => intro vec _; simp [cleanLoop]
  | cons a rest ih =>
    intro vec hne
    have hrest : RowsNonEmpty rest := fun r hr => hne r (List.mem_cons_of_mem _ hr)
    cases a with
    | nil => exact (hne [] (List.mem_cons_self _ _) rfl).elim
    | cons cse toks =>
      simp only [cleanLoop, List.getElem?_cons_zero, List.drop_succ_cons, List.drop_zero]
      rw [cleanRoster_spec]
      by_cases h : keptTokens cse student toks = []
      · have hlen : ¬ ([cse] ++ keptTokens cse student toks).length > 1 := by rw [h]; simp
        rw [if_neg hlen, ih vec hrest]
        simp [List.filterMap_cons, cleanRow, h]
      · have hlen : ([cse] ++ keptTokens cse student toks).length > 1 := by
          have : 0 < (keptTokens cse student toks).length := List.length_pos.2 h
          simp only [List.length_append, List.length_cons, List.length_nil]
          omega
        rw [if_pos hlen, ih _ hrest]
        simp [List.filterMap_cons, cleanRow, h]

theorem clean_spec {cv : V2D} (student : V2D) (hne : RowsNonEmpty cv) :
    clean cv student = some (cv.filterMap (cleanRow student)) := by
  rw [clean, cleanLoop_spec student cv [] hne]
  simp

theorem cleanRow_some {student : V2D} {a row : List String} (h : cleanRow student a = some row) :
    ∃ cse toks, a = cse :: toks ∧ row = cse :: keptTokens cse student toks ∧
      keptTokens cse student toks ≠ [] := by
  cases a with
  | nil => simp [cleanRow] at h
  | cons cse toks =>
    simp only [cleanRow] at h
    by_cases hk : keptTokens cse student toks = []
    · rw [if_pos hk] at h; exact Option.noConfusion h
    · rw [if_neg hk] at h
      injection h with h
      exact ⟨cse, toks, rfl, h.symm, hk⟩

theorem keys_filterMap_cleanRow (student : V2D) :
    ∀ (cv : V2D), keys (cv.filterMap (cleanRow student)) =
      keys (cv.filter (fun a => survives student a)) := by
  intro cv
  induction cv with
  | nil => rfl
  | cons a rest ih =>
    have hs := cleanRow_isSome student a
    cases hr : cleanRow student a with
    | none =>
      rw [hr] at hs
      have hs' : survives student a = false := by rw [← hs]; rfl
      rw [List.filterMap_cons_none hr, List.filter_cons_of_neg (by simp [hs']), ih]
    | some row =>
      rw [hr] at hs
      have hs' : survives student a = true := by rw [← hs]; rfl
      obtain ⟨cse, toks, ha, hrow, _⟩ := cleanRow_some hr
      rw [List.filterMap_cons_some hr, List.filter_cons_of_pos (by simp [hs'])]
      subst ha hrow
      simp only [keys, List.filterMap_cons, List.getElem?_cons_zero] at ih ⊢
      rw [ih]

theorem survives_iff (student : V2D) (a : List String) :
    survives student a = true ↔
      ∃ key, a[0]? = some key ∧ ∃ t ∈ a.drop 1, ∃ b ∈ student, t ∈ b ∧ key ∈ b := by
  cases a with
  | nil => simp [survives]
  | cons cse toks =>
    simp only [survives, List.any_eq_true, keeps_iff, List.getElem?_cons_zero,
      Option.some.injEq, List.drop_succ_cons, List.drop_zero]
    constructor
    · rintro ⟨t, ht, h⟩; exact ⟨cse, rfl, t, ht, h⟩
    · rintro ⟨key, hk, t, ht, h⟩; subst hk; exact ⟨t, ht, h⟩

theorem filterMap_cleanRow_nil (cv : V2D) : cv.filterMap (cleanRow []) = [] := by
  induction cv with
  | nil => rfl
  | cons a rest ih =>
    have h : cleanRow [] a = none := by
      cases a with
      | nil => rfl
      | cons cse toks =>
        have hk : keptTokens cse [] toks = [] :=
          (keptTokens_eq_nil_iff cse [] toks).2 (by simp [keeps])
        simp [cleanRow, hk]
    rw [List.filterMap_cons_none h, ih]

theorem mem_keys {t : V2D} {key : String} (h : key ∈ keys t) :
    ∃ row ∈ t, row[0]? = some key := by
  simpa [keys, List.mem_filterMap] using h

/-- Every output row of `clean` comes from an input row with the same key and
holds exactly the surviving tokens of its roster. -/
theorem clean_row_origin {cv student : V2D} {row : List String}
    (h : row ∈ cv.filterMap (cleanRow student)) :
    ∃ a ∈ cv, ∃ key, a[0]? = some key ∧ row[0]? = some key ∧ 2 ≤ row.length ∧
      ∀ t, t ∈ row.drop 1 ↔ (t ∈ a.drop 1 ∧ ∃ b ∈ student, t ∈ b ∧ key ∈ b) := by
  obtain ⟨a, ha, hr⟩ := List.mem_filterMap.1 h
  obtain ⟨cse, toks, h1, h2, h3⟩ := cleanRow_some hr
  subst h1 h2
  refine ⟨_, ha, cse, List.getElem?_cons_zero, List.getElem?_cons_zero, ?_, ?_⟩
  · have : 0 < (keptTokens cse student toks).length := List.length_pos.2 h3
    simp only [List.length_cons]
    omega
  · intro t
    simp only [List.drop_succ_cons, List.drop_zero]
    exact mem_keptTokens cse student t toks

/-! ## The search finds the least colouring -/

theorem colorLoop_lex {adj : List (List Int)} {v m k : Nat}
    (next : List Nat → Option (Bool × List Nat)) (hk : k < v)
    (hnext : ∀ colors1 r, colors1.length = v → SearchState adj m (k + 1) colors1 →
      next colors1 = some r → SearchPost adj v m (k + 1) colors1 r)
    (hlex : ∀ colors1 cs1, colors1.length = v → SearchState adj m (k + 1) colors1 →
      next colors1 = some (true, cs1) → ∀ g, PrefixValid adj m v g →
        (∀ i, i < k + 1 → g i = colors1.getD i 0) → LexLE v (fun i => cs1.getD i 0) g) :
    ∀ (n c : Nat) (colors cs : List Nat), 1 ≤ c → c + n = m + 1 →
      colors.length = v → SearchState adj m k colors →
      colorLoop next k adj v c n colors = some (true, cs) →
      ∀ g, PrefixValid adj m v g → (∀ i, i < k → g i = colors.getD i 0) → c ≤ g k →
        LexLE v (fun i => cs.getD i 0) g := by
  intro n
  induction n with
  | zero =>
    intro c colors cs _ _ _ _ h
    simp [colorLoop] at h
  | succ n ih =>
    intro c colors cs hc hcn hlen hst h g hg hagree hcg
    rw [colorLoop] at h
    cases hs : isSafe k c adj v colors with
    | none => rw [hs] at h; simp at h
    | some b =>
      cases b with
      | false =>
        rw [hs] at h
        simp only at h
        have hne : g k ≠ c := by
          intro hfk
          obtain ⟨j, _, hj2, hj3, hj4⟩ := isSafeLoop_false k c adj colors v 0 hs
          have hcj : colors.getD j 0 = c := getD_of_getElem? hj4
          have hjk : j < k := by
            by_contra hge
            have := hst.2 j (by omega)
            omega
          have := (hg k hk).2 j hjk hj3
          rw [hagree j hjk, hcj] at this
          exact this hfk
        exact ih (c + 1) colors cs (by omega) (by omega) hlen hst h g hg hagree (by omega)
      | true =>
        rw [hs] at h
        simp only at h
        have hkl : k < colors.length := by omega
        simp only [setColor, if_pos hkl] at h
        have hst1 : SearchState adj m (k + 1) (colors.set k c) :=
          searchState_step hk hlen hst hc (by omega) hs
        have hlen1 : (colors.set k c).length = v := by rw [List.length_set]; exact hlen
        have hagree1 : g k = c → ∀ i, i < k + 1 → g i = (colors.set k c).getD i 0 := by
          intro hgk i hi
          rw [getD_set]
          by_cases hik : i = k
          · subst hik; rw [if_pos ⟨rfl, hkl⟩]; exact hgk
          · rw [if_neg (by omega)]; exact hagree i (by omega)
        cases hn : next (colors.set k c) with
        | none => rw [hn] at h; simp at h
        | some r1 =>
          obtain ⟨b1, cs1⟩ := r1
          obtain ⟨_, p2, p3⟩ := hnext _ _ hlen1 hst1 hn
          cases b1 with
          | true =>
            rw [hn] at h
            simp only [Option.some.injEq, Prod.mk.injEq, true_and] at h
            subst h
            by_cases hgk : g k = c
            · exact hlex _ _ hlen1 hst1 hn g hg (hagree1 hgk)
            · right
              obtain ⟨_, q2⟩ := p2 rfl
              refine ⟨k, hk, ?_, ?_⟩
              · simp only
                rw [q2 k (by omega), getD_set, if_pos ⟨rfl, hkl⟩]
                omega
              · intro j hj
                simp only
                rw [q2 j (by omega), getD_set, if_neg (by omega)]
                exact (hagree j hj).symm
          | false =>
            rw [hn] at h
            simp only at h
            obtain ⟨q1, q2⟩ := p3 rfl
            simp only at q1
            subst q1
            have hkl1 : k < (colors.set k c).length := by omega
            rw [if_pos hkl1, set_set_zero colors k c (hst.2 k (le_refl _))] at h
            simp only at h
            have hne : g k ≠ c := fun hgk => q2 g hg (hagree1 hgk)
            exact ih (c + 1) colors cs (by omega) (by omega) hlen hst h g hg hagree (by omega)

theorem graphColor_lex {adj : List (List Int)} {v m : Nat} :
    ∀ (fuel k : Nat) (colors cs : List Nat), k ≤ v →
      colors.length = v → SearchState adj m k colors →
      graphColor fuel k m colors adj v = some (true, cs) →
      ∀ g, PrefixValid adj m v g → (∀ i, i < k → g i = colors.getD i 0) →
        LexLE v (fun i => cs.getD i 0) g := by
  intro fuel
  induction fuel with
  | zero => intro k colors cs _ _ _ h; simp [graphColor] at h
  | succ fuel ih =>
    intro k colors cs hk hlen hst h g hg hagree
    rw [graphColor] at h
    by_cases hkv : k = v
    · rw [if_pos hkv] at h
      simp only [Option.some.injEq, Prod.mk.injEq, true_and] at h
      subst h
      subst hkv
      exact Or.inl (fun i hi => (hagree i hi).symm)
    · rw [if_neg hkv] at h
      have hk' : k < v := by omega
      exact colorLoop_lex (fun cs => graphColor fuel (k + 1) m cs adj v) hk'
        (fun colors1 r1 hl1 hs1 hr1 => graphColor_post fuel (k + 1) colors1 r1 (by omega) hl1 hs1 hr1)
        (fun colors1 cs1 hl1 hs1 hr1 => ih (k + 1) colors1 cs1 (by omega) hl1 hs1 hr1)
        m 1 colors cs (le_refl _) (by omega) hlen hst h g hg hagree (hg k hk').1.1

/-! ## More fuel does not change the result -/

theorem colorLoop_mono {adj : List (List Int)} {v k : Nat}
    (next1 next2 : List Nat → Option (Bool × List Nat))
    (hnext : ∀ cs r, next1 cs = some r → next2 cs = some r) :
    ∀ (n c : Nat) (colors : List Nat) (r : Bool × List Nat),
      colorLoop next1 k adj v c n colors = some r →
      colorLoop next2 k adj v c n colors = some r := by
  intro n
  induction n with
  | zero => intro c colors r h; simpa [colorLoop] using h
  | succ n ih =>
    intro c colors r h
    rw [colorLoop] at h ⊢
    cases hs : isSafe k c adj v colors with
    | none => rw [hs] at h; simp at h
    | some b =>
      rw [hs] at h
      cases b with
      | false => exact ih _ _ _ h
      | true =>
        simp only at h ⊢
        cases hc : setColor colors k c with
        | none => rw [hc] at h; simp at h
        | some colors1 =>
          rw [hc] at h
          simp only at h ⊢
          cases hn : next1 colors1 with
          | none => rw [hn] at h; simp at h
          | some r1 =>
            rw [hn] at h
            rw [hnext _ _ hn]
            obtain ⟨b1, cs1⟩ := r1
            cases b1 with
            | true => exact h
            | false =>
              simp only at h ⊢
              cases hc2 : setColor cs1 k 0 with
              | none => rw [hc2] at h; simp at h
              | some colors3 =>
                rw [hc2] at h
                exact ih _ _ _ h

theorem graphColor_mono_succ {adj : List (List Int)} {v m : Nat} :
    ∀ (fuel k : Nat) (colors : List Nat) (r : Bool × List Nat),
      graphColor fuel k m colors adj v = some r →
      graphColor (fuel + 1) k m colors adj v = some r := by
  intro fuel
  induction fuel with
  | zero => intro k colors r h; simp [graphColor] at h
  | succ fuel ih =>
    intro k colors r h
    rw [graphColor] at h ⊢
    by_cases hkv : k = v
    · rw [if_pos hkv] at h ⊢; exact h
    · rw [if_neg hkv] at h ⊢
      exact colorLoop_mono _ _ (fun cs r1 h1 => ih (k + 1) cs r1 h1) m 1 colors r h

theorem graphColor_mono {adj : List (List Int)} {v m k : Nat} {colors : List Nat}
    {r : Bool × List Nat} :
    ∀ (d fuel : Nat), graphColor fuel k m colors adj v = some r →
      graphColor (fuel + d) k m colors adj v = some r := by
  intro d
  induction d with
  | zero => intro fuel h; exact h
  | succ d ih =>
    intro fuel h
    exact graphColor_mono_succ (fuel + d) k colors r (ih fuel h)

/-! ## A failed search restores the array -/

theorem ext_getD {l1 l2 : List Nat} (hlen : l1.length = l2.length)
    (h : ∀ i, l1.getD i 0 = l2.getD i 0) : l1 = l2 := by
  apply List.ext_getElem?
  intro i
  by_cases hi : i < l1.length
  · have hi2 : i < l2.length := by omega
    have := h i
    rw [List.getD_eq_getElem?_getD, List.getD_eq_getElem?_getD,
      List.getElem?_eq_getElem hi, List.getElem?_eq_getElem hi2] at this
    rw [List.getElem?_eq_getElem hi, List.getElem?_eq_getElem hi2]
    simp only [Option.getD_some] at this
    rw [this]
  · rw [List.getElem?_eq_none (by omega), List.getElem?_eq_none (by omega)]

theorem colorLoop_restore {adj : List (List Int)} {v k : Nat}
    (next : List Nat → Option (Bool × List Nat))
    (hnext : ∀ colors1 cs1, ZerosAbove (k + 1) colors1 → next colors1 = some (false, cs1) →
      cs1.length = colors1.length ∧ (∀ i, i ≠ k + 1 → cs1.getD i 0 = colors1.getD i 0) ∧
      (cs1.getD (k + 1) 0 = colors1.getD (k + 1) 0 ∨ cs1.getD (k + 1) 0 = 0)) :
    ∀ (n c : Nat) (cur cs : List Nat), ZerosAbove k cur →
      colorLoop next k adj v c n cur = some (false, cs) →
      cs.length = cur.length ∧ (∀ i, i ≠ k → cs.getD i 0 = cur.getD i 0) ∧
      ((∃ c1, c ≤ c1 ∧ c1 < c + n ∧ isSafe k c1 adj v cur = some true) → cs.getD k 0 = 0) ∧
      ((¬ ∃ c1, c ≤ c1 ∧ c1 < c + n ∧ isSafe k c1 adj v cur = some true) → cs = cur) := by
  intro n
  induction n with
  | zero =>
    intro c cur cs _ h
    simp only [colorLoop, Option.some.injEq, Prod.mk.injEq, true_and] at h
    subst h
    refine ⟨rfl, fun _ _ => rfl, ?_, fun _ => rfl⟩
    rintro ⟨c1, h1, h2, _⟩
    omega
  | succ n ih =>
    intro c cur cs hz h
    rw [colorLoop] at h
    cases hs : isSafe k c adj v cur with
    | none => rw [hs] at h; simp at h
    | some b =>
      cases b with
      | false =>
        rw [hs] at h
        simp only at h
        obtain ⟨h1, h2, h3, h4⟩ := ih (c + 1) cur cs hz h
        have hiff : (∃ c1, c ≤ c1 ∧ c1 < c + (n + 1) ∧ isSafe k c1 adj v cur = some true) ↔
            (∃ c1, c + 1 ≤ c1 ∧ c1 < c + 1 + n ∧ isSafe k c1 adj v cur = some true) := by
          constructor
          · rintro ⟨c1, a1, a2, a3⟩
            have hne : c1 ≠ c := by
              intro e; subst e; rw [hs] at a3; simp at a3
            exact ⟨c1, by omega, by omega, a3⟩
          · rintro ⟨c1, a1, a2, a3⟩
            exact ⟨c1, by omega, by omega, a3⟩
        exact ⟨h1, h2, fun ht => h3 (hiff.1 ht), fun hn => h4 (fun ht => hn (hiff.2 ht))⟩
      | true =>
        rw [hs] at h
        simp only at h
        by_cases hkl : k < cur.length
        · simp only [setColor, if_pos hkl] at h
          have hz1 : ZerosAbove (k + 1) (cur.set k c) := by
            intro i hi
            rw [getD_set, if_neg (by omega)]
            exact hz i (by omega)
          cases hn : next (cur.set k c) with
          | none => rw [hn] at h; simp at h
          | some r1 =>
            obtain ⟨b1, cs2⟩ := r1
            rw [hn] at h
            cases b1 with
            | true => simp at h
            | false =>
              simp only at h
              obtain ⟨p1, p2, p3⟩ := hnext _ _ hz1 hn
              have hk1 : (cur.set k c).getD (k + 1) 0 = 0 := by
                rw [getD_set, if_neg (by omega)]
                exact hz (k + 1) (by omega)
              have heq : cs2 = cur.set k c := by
                apply ext_getD p1
                intro i
                by_cases hi : i = k + 1
                · subst hi
                  rcases p3 with p3 | p3
                  · exact p3
                  · rw [p3, hk1]
                · exact p2 i hi
              subst heq
              have hkl1 : k < (cur.set k c).length := by rw [List.length_set]; exact hkl
              rw [if_pos hkl1, List.set_set] at h
              simp only at h
              have hz2 : ZerosAbove k (cur.set k 0) := by
                intro i hi
                rw [getD_set, if_neg (by omega)]
                exact hz i hi
              obtain ⟨h1, h2, h3, h4⟩ := ih (c + 1) (cur.set k 0) cs hz2 h
              have hk0 : cs.getD k 0 = 0 := by
                by_cases ht : ∃ c1, c + 1 ≤ c1 ∧ c1 < c + 1 + n ∧
                    isSafe k c1 adj v (cur.set k 0) = some true
                · exact h3 ht
                · rw [h4 ht, getD_set, if_pos ⟨rfl, hkl⟩]
              refine ⟨by rw [h1, List.length_set], ?_, fun _ => hk0, ?_⟩
              · intro i hi
                rw [h2 i hi, getD_set, if_neg (by omega)]
              · intro hnone
                exact (hnone ⟨c, le_refl _, by omega, hs⟩).elim
        · simp only [setColor, if_neg hkl] at h
          simp at h

theorem graphColor_restore {adj : List (List Int)} {v m : Nat} :
    ∀ (fuel k : Nat) (colors cs : List Nat), ZerosAbove k colors →
      graphColor fuel k m colors adj v = some (false, cs) →
      cs.length = colors.length ∧ (∀ i, i ≠ k → cs.getD i 0 = colors.getD i 0) ∧
      ((∃ c, 1 ≤ c ∧ c ≤ m ∧ isSafe k c adj v colors = some true) → cs.getD k 0 = 0) ∧
      ((¬ ∃ c, 1 ≤ c ∧ c ≤ m ∧ isSafe k c adj v colors = some true) → cs = colors) := by
  intro fuel
  induction fuel with
  | zero => intro k colors cs _ h; simp [graphColor] at h
  | succ fuel ih =>
    intro k colors cs hz h
    rw [graphColor] at h
    by_cases hkv : k = v
    · rw [if_pos hkv] at h; simp at h
    · rw [if_neg hkv] at h
      obtain ⟨h1, h2, h3, h4⟩ := colorLoop_restore
        (fun cs => graphColor fuel (k + 1) m cs adj v)
        (fun colors1 cs1 hz1 hr1 => by
          obtain ⟨a1, a2, a3, a4⟩ := ih (k + 1) colors1 cs1 hz1 hr1
          refine ⟨a1, a2, ?_⟩
          by_cases ht : ∃ c, 1 ≤ c ∧ c ≤ m ∧ isSafe (k + 1) c adj v colors1 = some true
          · exact Or.inr (a3 ht)
          · exact Or.inl (by rw [a4 ht]))
        m 1 colors cs hz h
      have hiff : (∃ c1, 1 ≤ c1 ∧ c1 < 1 + m ∧ isSafe k c1 adj v colors = some true) ↔
          (∃ c, 1 ≤ c ∧ c ≤ m ∧ isSafe k c adj v colors = some true) := by
        constructor
        · rintro ⟨c1, a1, a2, a3⟩; exact ⟨c1, a1, by omega, a3⟩
        · rintro ⟨c1, a1, a2, a3⟩; exact ⟨c1, a1, by omega, a3⟩
      exact ⟨h1, h2, fun ht => h3 (hiff.2 ht), fun hn => h4 (fun ht => hn (hiff.1 ht))⟩

/-! ## Lemmas on the rows of a schedule -/

theorem slotCourses_nil_left (colors : List Nat) (slot : Nat) : slotCourses [] colors slot = [] := by
  simp [slotCourses]

theorem slotCourses_all {slot : Nat} :
    ∀ (co : List String) (cs : List Nat), cs.length = co.length → (∀ c ∈ cs, c = slot) →
      slotCourses co cs slot = co := by
  intro co
  induction co with
  | nil => intro cs _ _; exact slotCourses_nil_left cs slot
  | cons key co ih =>
    intro cs hlen hall
    cases cs with
    | nil => simp at hlen
    | cons c cs =>
      rw [slotCourses_cons, if_pos (hall c (List.mem_cons_self _ _)),
        ih cs (by simpa using hlen) (fun c1 h1 => hall c1 (List.mem_cons_of_mem _ h1))]

theorem slotCourses_none {slot : Nat} (co : List String) (cs : List Nat)
    (h : ∀ c ∈ cs, c ≠ slot) : slotCourses co cs slot = [] := by
  apply List.eq_nil_iff_forall_not_mem.2
  intro key hkey
  obtain ⟨a, _, ha⟩ := (mem_slotCourses co cs).1 hkey
  exact h slot (List.mem_iff_getElem?.2 ⟨a, ha⟩) rfl

theorem slotCourses_index :
    ∀ (co : List String) (cs : List Nat) (off : Nat), cs.length = co.length →
      (∀ a, a < cs.length → cs.getD a 0 = off + a + 1) →
      ∀ slot, slotCourses co cs slot =
        if off < slot then (co[slot - off - 1]?).toList else [] := by
  intro co
  induction co with
  | nil =>
    intro cs off _ _ slot
    rw [slotCourses_nil_left]
    by_cases h : off < slot
    · rw [if_pos h]; rfl
    · rw [if_neg h]
  | cons key co ih =>
    intro cs off hlen hcs slot
    cases cs with
    | nil => simp at hlen
    | cons c cs =>
      have hc : c = off + 1 := by
        have := hcs 0 (by simp)
        simpa using this
      have hrest := ih cs (off + 1) (by simpa using hlen)
        (fun a ha => by
          have := hcs (a + 1) (by simp only [List.length_cons]; omega)
          simp only [List.getD_cons_succ] at this
          omega) slot
      rw [slotCourses_cons, hrest]
      by_cases hs : c = slot
      · have h1 : ¬ off + 1 < slot := by omega
        have h2 : off < slot := by omega
        have h3 : slot - off - 1 = 0 := by omega
        rw [if_pos hs, if_neg h1, if_pos h2, h3, List.getElem?_cons_zero]
        rfl
      · rw [if_neg hs]
        by_cases h2 : off < slot
        · have h1 : off + 1 < slot := by omega
          have h3 : slot - off - 1 = (slot - (off + 1) - 1) + 1 := by omega
          rw [if_pos h1, if_pos h2, h3, List.getElem?_cons_succ]
        · have h1 : ¬ off + 1 < slot := by omega
          rw [if_neg h1, if_neg h2]

theorem concatCourses_rowsFrom_nil (cs : List Nat) :
    ∀ (ts : List String) (i : Nat), concatCourses (rowsFrom [] cs i ts) = [] := by
  intro ts
  induction ts with
  | nil => intro i; rfl
  | cons t rest ih =>
    intro i
    simp [rowsFrom, concatCourses, slotCourses_nil_left, ih]

theorem concatCourses_rowsFrom_cons (key : String) (co : List String) (c : Nat) (cs : List Nat) :
    ∀ (ts : List String) (i : Nat),
      (concatCourses (rowsFrom (key :: co) (c :: cs) i ts)).Perm
        ((if i < c ∧ c ≤ i + ts.length then [key] else []) ++
          concatCourses (rowsFrom co cs i ts)) := by
  intro ts
  induction ts with
  | nil =>
    intro i
    have h : ¬ (i < c ∧ c ≤ i + ([] : List String).length) := by
      simp only [List.length_nil]; omega
    rw [if_neg h]
    exact List.Perm.refl _
  | cons t rest ih =>
    intro i
    simp only [rowsFrom, concatCourses, List.drop_succ_cons, List.drop_zero, List.length_cons]
    rw [slotCourses_cons]
    by_cases hc : c = i + 1
    · have h1 : i < c ∧ c ≤ i + (rest.length + 1) := by omega
      have h2 : ¬ (i + 1 < c ∧ c ≤ i + 1 + rest.length) := by omega
      have hih := ih (i + 1)
      rw [if_neg h2] at hih
      rw [if_pos hc, if_pos h1]
      simp only [List.cons_append, List.nil_append, List.singleton_append] at hih ⊢
      exact List.Perm.cons _ (List.Perm.append_left _ hih)
    · rw [if_neg hc]
      have hih := ih (i + 1)
      by_cases h1 : i < c ∧ c ≤ i + (rest.length + 1)
      · have h2 : i + 1 < c ∧ c ≤ i + 1 + rest.length := by omega
        rw [if_pos h2] at hih
        rw [if_pos h1]
        simp only [List.singleton_append] at hih ⊢
        exact (List.Perm.append_left _ hih).trans List.perm_middle
      · have h2 : ¬ (i + 1 < c ∧ c ≤ i + 1 + rest.length) := by omega
        rw [if_neg h2] at hih
        rw [if_neg h1]
        simp only [List.nil_append] at hih ⊢
        exact List.Perm.append_left _ hih

theorem concatCourses_rowsFrom_perm (ts : List String) :
    ∀ (co : List String) (cs : List Nat), cs.length = co.length →
      (∀ c ∈ cs, 1 ≤ c ∧ c ≤ ts.length) →
      (concatCourses (rowsFrom co cs 0 ts)).Perm co := by
  intro co
  induction co with
  | nil =>
    intro cs _ _
    rw [concatCourses_rowsFrom_nil]
  | cons key co ih =>
    intro cs hlen hall
    cases cs with
    | nil => simp at hlen
    | cons c cs =>
      have hc := hall c (List.mem_cons_self _ _)
      have h1 : 0 < c ∧ c ≤ 0 + ts.length := by omega
      have hstep := concatCourses_rowsFrom_cons key co c cs ts 0
      rw [if_pos h1] at hstep
      simp only [List.singleton_append] at hstep
      exact hstep.trans (List.Perm.cons _
        (ih cs (by simpa using hlen) (fun c1 h1 => hall c1 (List.mem_cons_of_mem _ h1))))

theorem mem_getD {cs : List Nat} {c : Nat} (h : c ∈ cs) :
    ∃ i, i < cs.length ∧ cs.getD i 0 = c := by
  obtain ⟨i, hi, he⟩ := List.mem_iff_getElem.1 h
  refine ⟨i, hi, ?_⟩
  rw [List.getD_eq_getElem?_getD, List.getElem?_eq_getElem hi, he]
  rfl

/-! ## The search of `schedule` when a colouring exists -/

theorem scheduleSearch_found {courses : V2D} {timeslots : List String}
    (hne : RowsNonEmpty courses) {adj : List (List Int)}
    (hadj : buildAdjacencyMatrix courses = some adj) {g : Nat → Nat}
    (hg : ValidColoring adj courses.length timeslots.length g) :
    ∃ cs, scheduleSearch courses timeslots = some (keys courses, true, cs) ∧
      cs.length = courses.length ∧
      ValidColoring adj courses.length timeslots.length (fun i => cs.getD i 0) ∧
      LexLE courses.length (fun i => cs.getD i 0) g := by
  obtain ⟨b, cs, hs⟩ := scheduleSearch_total timeslots hne
  obtain ⟨_, _, adj1, hadj1, hgc⟩ := scheduleSearch_spec hs
  rw [hadj] at hadj1
  injection hadj1 with hadj1
  subst hadj1
  cases b with
  | false => exact (noColoring_of_search_false hgc ⟨g, hg⟩).elim
  | true =>
    obtain ⟨hlen, adj2, hadj2, hval⟩ := scheduleSearch_valid hs
    rw [hadj] at hadj2
    injection hadj2 with hadj2
    subst hadj2
    refine ⟨cs, hs, hlen, hval, ?_⟩
    exact graphColor_lex _ 0 _ cs (Nat.zero_le _) (List.length_replicate _ _)
      (searchState_zeros adj _ _) hgc g (prefixValid_of_validColoring hg) (fun i hi => by omega)

theorem hit_of_sharesToken {courses : V2D} {i j : Nat} (h : SharesToken courses i j) :
    Hit courses i j := by
  obtain ⟨ci, cj, h1, h2, tok, h3, h4⟩ := h
  exact ⟨ci, cj, h1, h2, tok, h3, List.mem_of_mem_drop h4⟩

theorem all_of_getD {cs : List Nat} {p : Nat → Prop}
    (h : ∀ i, i < cs.length → p (cs.getD i 0)) : ∀ c ∈ cs, p c := by
  intro c hc
  obtain ⟨i, hi, he⟩ := mem_getD hc
  rw [← he]
  exact h i hi

/-! ## Claims on the colouring search -/

/-- C1 (colouring validity): when `graphColor(0, m, colors, adj, v)` is started on
`v` zeros over a symmetric matrix and returns `true`, the final array has
length `v`, every vertex has a colour in `[1, m]`, and distinct vertices `i`,
`j` with `adj[i][j] = 1` have different colours. -/
theorem graphColor_valid (v m fuel : Nat) (adj : List (List Int)) (cs : List Nat)
    (hsym : Symmetric v adj)
    (h : graphColor fuel 0 m (List.replicate v 0) adj v = some (true, cs)) :
    cs.length = v ∧ ValidColoring adj v m (fun i => cs.getD i 0) := by
  obtain ⟨h1, h2, _⟩ := graphColor_post fuel 0 (List.replicate v 0) (true, cs) (Nat.zero_le v)
    (List.length_replicate _ _) (searchState_zeros adj m v) h
  exact ⟨h1, validColoring_of_searchState hsym (h2 rfl).1⟩

/-- Witness of C1 on the triangle with three colours. -/
theorem graphColor_valid_witness :
    [1, 2, 3].length = 3 ∧
      ValidColoring [[0, 1, 1], [1, 0, 1], [1, 1, 0]] 3 3 (fun i => [1, 2, 3].getD i 0) :=
  graphColor_valid 3 3 4 [[0, 1, 1], [1, 0, 1], [1, 1, 0]] [1, 2, 3] (by decide) (by decide)

/-- C2 (exhaustiveness): when `graphColor(0, m, colors, adj, v)` started on `v`
zeros returns `false`, no assignment of colours in `[1, m]` to the vertices
`0 .. v-1` gives different colours to all distinct `i`, `j` with
`adj[i][j] = 1`. -/
theorem graphColor_exhaustive (v m fuel : Nat) (adj : List (List Int)) (cs : List Nat)
    (h : graphColor fuel 0 m (List.replicate v 0) adj v = some (false, cs)) :
    ¬ ∃ f : Nat → Nat, ValidColoring adj v m f := by
  obtain ⟨_, _, h3⟩ := graphColor_post fuel 0 (List.replicate v 0) (false, cs) (Nat.zero_le v)
    (List.length_replicate _ _) (searchState_zeros adj m v) h
  rintro ⟨f, hf⟩
  exact (h3 rfl).2 f (prefixValid_of_validColoring hf) (fun i hi => by omega)

/-- Witness of C2 on the triangle with two colours. -/
theorem graphColor_exhaustive_witness :
    ¬ ∃ f : Nat → Nat, ValidColoring [[0, 1, 1], [1, 0, 1], [1, 1, 0]] 3 2 f :=
  graphColor_exhaustive 3 2 4 [[0, 1, 1], [1, 0, 1], [1, 1, 0]] [0, 0, 0] (by decide)

/-! ## Claims on `schedule` -/

/-- C3 (end-to-end conflict freedom): on a table with non-empty rows and pairwise
distinct keys, when the colouring search of `schedule` succeeds, `schedule`
returns rows in which the keys of two distinct courses `i`, `j`, such that a
roster token of `i` occurs in the record of `j`, never both appear in the
course list (positions `>= 1`) of one row. -/
theorem schedule_conflict_free (courses : V2D) (timeslots co : List String) (cs : List Nat)
    (hne : RowsNonEmpty courses) (hnd : (keys courses).Nodup)
    (hs : scheduleSearch courses timeslots = some (co, true, cs)) :
    ∃ out, schedule courses timeslots = some out ∧
      ∀ (i j : Nat) (ki kj : String), i ≠ j → (keys courses)[i]? = some ki →
        (keys courses)[j]? = some kj → Hit courses i j →
        ∀ row ∈ out, ¬ (ki ∈ row.drop 1 ∧ kj ∈ row.drop 1) := by
  refine ⟨_, schedule_success hs, ?_⟩
  intro i j ki kj hij hki hkj hit row hrow
  obtain ⟨r, t, _, hr⟩ := mem_rowsFrom hrow
  subst hr
  simp only [List.drop_succ_cons, List.drop_zero]
  rintro ⟨h1, h2⟩
  obtain ⟨a, ha1, ha2⟩ := (mem_slotCourses _ _).1 h1
  obtain ⟨b, hb1, hb2⟩ := (mem_slotCourses _ _).1 h2
  have hil : i < (keys courses).length := lt_length_of_getElem? hki
  have hjl : j < (keys courses).length := lt_length_of_getElem? hkj
  have hai : i = a := List.getElem?_inj hil hnd (by rw [hki, ha1])
  have hbj : j = b := List.getElem?_inj hjl hnd (by rw [hkj, hb1])
  subst hai hbj
  rw [keys_length hne] at hil hjl
  obtain ⟨_, adj, hadj, hval⟩ := scheduleSearch_valid hs
  obtain ⟨adj', hadj', _, hc⟩ := buildAdjacencyMatrix_spec hne
  rw [hadj] at hadj'
  injection hadj' with hadj'
  subst hadj'
  have hentry : getEntry adj i j = some 1 := (hc i hil j hjl).1 (Or.inr hit)
  have := (hval i hil).2 j hjl hij hentry
  simp only at this
  rw [getD_of_getElem? ha2, getD_of_getElem? hb2] at this
  exact this rfl

/-- Witness of C3: courses `A` and `B` share student `s2`, course `C` is apart. -/
theorem schedule_conflict_free_witness :
    ∃ out, schedule [["A", "s1", "s2"], ["B", "s2"], ["C", "s3"]] ["t1", "t2"] = some out ∧
      ∀ (i j : Nat) (ki kj : String), i ≠ j →
        (keys [["A", "s1", "s2"], ["B", "s2"], ["C", "s3"]])[i]? = some ki →
        (keys [["A", "s1", "s2"], ["B", "s2"], ["C", "s3"]])[j]? = some kj →
        Hit [["A", "s1", "s2"], ["B", "s2"], ["C", "s3"]] i j →
        ∀ row ∈ out, ¬ (ki ∈ row.drop 1 ∧ kj ∈ row.drop 1) :=
  schedule_conflict_free [["A", "s1", "s2"], ["B", "s2"], ["C", "s3"]] ["t1", "t2"]
    ["A", "B", "C"] [1, 2, 1] (by decide) (by decide) (by decide)

/-- C4 (infeasible result): on a table with non-empty rows, when the conflict
graph built by `buildAdjacencyMatrix` has no valid colouring with
`|timeslots|` colours, `schedule` returns the single row `["-1"]`. -/
theorem schedule_infeasible (courses : V2D) (timeslots : List String)
    (hne : RowsNonEmpty courses)
    (hno : ∀ adj, buildAdjacencyMatrix courses = some adj →
      ¬ ∃ f : Nat → Nat, ValidColoring adj courses.length timeslots.length f) :
    schedule courses timeslots = some [["-1"]] := by
  obtain ⟨b, cs, hs⟩ := scheduleSearch_total timeslots hne
  cases b with
  | false => exact schedule_failure hs
  | true =>
    obtain ⟨_, adj, hadj, hval⟩ := scheduleSearch_valid hs
    exact (hno adj hadj ⟨_, hval⟩).elim

/-- Witness of C4: the triangle `A-{s1,s2}`, `B-{s2,s3}`, `C-{s1,s3}` with two
timeslots gives `[["-1"]]`. -/
theorem schedule_infeasible_witness :
    schedule [["A", "s1", "s2"], ["B", "s2", "s3"], ["C", "s1", "s3"]] ["t1", "t2"] =
      some [["-1"]] :=
  schedule_infeasible [["A", "s1", "s2"], ["B", "s2", "s3"], ["C", "s1", "s3"]] ["t1", "t2"]
    (by decide)
    (fun adj hadj => by
      have h : buildAdjacencyMatrix [["A", "s1", "s2"], ["B", "s2", "s3"], ["C", "s1", "s3"]]
          = some [[1, 1, 1], [1, 1, 1], [1, 1, 1]] := by decide
      rw [h] at hadj
      injection hadj with hadj
      subst hadj
      exact noColoring_of_search_false
        (show graphColor 4 0 2 (List.replicate 3 0) [[1, 1, 1], [1, 1, 1], [1, 1, 1]] 3
          = some (false, [0, 0, 0]) by decide))

/-- C5 (success shape): when the colouring search of `schedule` succeeds with the
colours `cs`, `schedule` returns exactly `|timeslots|` rows; row `i` is
`timeslots[i]` followed by the keys of the courses coloured `i + 1` in table
order, and it is the label alone when no course is coloured `i + 1`. -/
theorem schedule_rows (courses : V2D) (timeslots co : List String) (cs : List Nat)
    (hne : RowsNonEmpty courses)
    (hs : scheduleSearch courses timeslots = some (co, true, cs)) :
    ∃ out, schedule courses timeslots = some out ∧ out.length = timeslots.length ∧
      cs.length = (keys courses).length ∧
      ∀ (i : Nat) (t : String), timeslots[i]? = some t →
        out[i]? = some (t :: slotCourses (keys courses) cs (i + 1)) ∧
        ((∀ a : Nat, cs[a]? ≠ some (i + 1)) → out[i]? = some [t]) := by
  refine ⟨_, schedule_success hs, rowsFrom_length _ _ _ _, ?_, ?_⟩
  · rw [keys_length hne]; exact (scheduleSearch_valid hs).1
  · intro i t ht
    have hrow : (rowsFrom (keys courses) cs 0 timeslots)[i]? =
        some (t :: slotCourses (keys courses) cs (i + 1)) := by
      rw [rowsFrom_getElem?, ht]; simp
    refine ⟨hrow, ?_⟩
    intro hnone
    have hnil : slotCourses (keys courses) cs (i + 1) = [] := by
      apply List.eq_nil_iff_forall_not_mem.2
      intro k hk
      obtain ⟨a, _, ha⟩ := (mem_slotCourses _ _).1 hk
      exact hnone a ha
    rw [hrow, hnil]

/-- Witness of C5: two courses without a common student and two timeslots. -/
theorem schedule_rows_witness :
    ∃ out, schedule [["A", "s1"], ["B", "s2"]] ["t1", "t2"] = some out ∧
      out.length = ["t1", "t2"].length ∧
      [1, 1].length = (keys [["A", "s1"], ["B", "s2"]]).length ∧
      ∀ (i : Nat) (t : String), ["t1", "t2"][i]? = some t →
        out[i]? = some (t :: slotCourses (keys [["A", "s1"], ["B", "s2"]]) [1, 1] (i + 1)) ∧
        ((∀ a : Nat, [1, 1][a]? ≠ some (i + 1)) → out[i]? = some [t]) :=
  schedule_rows [["A", "s1"], ["B", "s2"]] ["t1", "t2"] ["A", "B"] [1, 1] (by decide) (by decide)

/-- C6, the claim as stated fails: on the empty course table with the single
label `"-1"` the search succeeds and `schedule` returns `[["-1"]]`. -/
theorem schedule_sentinel_clash :
    scheduleSearch [] ["-1"] = some ([], true, []) ∧ schedule [] ["-1"] = some [["-1"]] := by
  decide

/-- C6 as amended: unless the course table is empty and the timeslot list is
`["-1"]`, a successful search never makes `schedule` return `[["-1"]]`, and
`schedule` returns `[["-1"]]` only when the conflict graph has no valid
colouring with `|timeslots|` colours. -/
theorem schedule_sentinel_distinct (courses : V2D) (timeslots : List String)
    (hx : ¬ (courses = [] ∧ timeslots = ["-1"])) :
    (∀ co cs, scheduleSearch courses timeslots = some (co, true, cs) →
      schedule courses timeslots ≠ some [["-1"]]) ∧
    (schedule courses timeslots = some [["-1"]] →
      ∀ adj, buildAdjacencyMatrix courses = some adj →
        ¬ ∃ f : Nat → Nat, ValidColoring adj courses.length timeslots.length f) := by
  have first : ∀ co cs, scheduleSearch courses timeslots = some (co, true, cs) →
      schedule courses timeslots ≠ some [["-1"]] := by
    intro co cs hs hout
    rw [schedule_success hs] at hout
    injection hout with hout
    obtain ⟨hne, _, _⟩ := scheduleSearch_spec hs
    obtain ⟨hlen, adj, _, hval⟩ := scheduleSearch_valid hs
    cases timeslots with
    | nil => simp [rowsFrom] at hout
    | cons t rest =>
      cases rest with
      | cons t2 rest2 => simp [rowsFrom] at hout
      | nil =>
        simp only [rowsFrom, List.cons.injEq, and_true] at hout
        obtain ⟨ht, hnil⟩ := hout
        cases courses with
        | nil => exact hx ⟨rfl, by rw [ht]⟩
        | cons row rest =>
          have h0 : 0 < (row :: rest).length := by simp
          have hc := (hval 0 h0).1
          simp only [List.length_cons, List.length_nil] at hc
          have hc1 : cs.getD 0 0 = 1 := by omega
          have hcs : cs[0]? = some 1 := by
            rw [List.getD_eq_getElem?_getD, List.getElem?_eq_getElem (by omega)] at hc1
            rw [List.getElem?_eq_getElem (by omega)]
            simp at hc1
            rw [hc1]
          have hkl : 0 < (keys (row :: rest)).length := by rw [keys_length hne]; exact h0
          have hmem : (keys (row :: rest))[0] ∈ slotCourses (keys (row :: rest)) cs (0 + 1) :=
            (mem_slotCourses _ _).2 ⟨0, List.getElem?_eq_getElem hkl, hcs⟩
          rw [hnil] at hmem
          cases hmem
  refine ⟨first, ?_⟩
  intro hout adj hadj
  cases hs : scheduleSearch courses timeslots with
  | none => simp [schedule, hs] at hout
  | some r =>
    obtain ⟨co, b, cs⟩ := r
    cases b with
    | true => exact (first co cs hs hout).elim
    | false =>
      obtain ⟨_, _, adj', hadj', hg⟩ := scheduleSearch_spec hs
      rw [hadj] at hadj'
      injection hadj' with hadj'
      subst hadj'
      exact noColoring_of_search_false hg

/-- Witness of C6 as amended: a single course and the single label `"-1"`. -/
theorem schedule_sentinel_distinct_witness :
    (∀ co cs, scheduleSearch [["A", "s1"]] ["-1"] = some (co, true, cs) →
      schedule [["A", "s1"]] ["-1"] ≠ some [["-1"]]) ∧
    (schedule [["A", "s1"]] ["-1"] = some [["-1"]] →
      ∀ adj, buildAdjacencyMatrix [["A", "s1"]] = some adj →
        ¬ ∃ f : Nat → Nat, ValidColoring adj [["A", "s1"]].length ["-1"].length f) :=
  schedule_sentinel_distinct [["A", "s1"]] ["-1"] (by decide)

/-! ## Claims on `clean` -/

/-- C7 (survival criterion): on a course table with non-empty rows, every output
row of `clean` comes from an input row with the same key, and a token is among
its students iff it is among the students of that input row and some single
record of the student table holds both the token and the key; a student that
no input row of course `key` lists never appears under `key`. -/
theorem clean_survival (cv student : V2D) (hne : RowsNonEmpty cv) :
    ∃ out, clean cv student = some out ∧
      (∀ row ∈ out, ∃ a ∈ cv, ∃ key, a[0]? = some key ∧ row[0]? = some key ∧
        ∀ t, t ∈ row.drop 1 ↔ (t ∈ a.drop 1 ∧ ∃ b ∈ student, t ∈ b ∧ key ∈ b)) ∧
      (∀ key t, (∀ a ∈ cv, a[0]? = some key → t ∉ a.drop 1) →
        ∀ row ∈ out, row[0]? = some key → t ∉ row.drop 1) := by
  refine ⟨_, clean_spec student hne, ?_, ?_⟩
  · intro row hrow
    obtain ⟨a, ha, key, h1, h2, _, h3⟩ := clean_row_origin hrow
    exact ⟨a, ha, key, h1, h2, h3⟩
  · intro key t homit row hrow hkey hmem
    obtain ⟨a, ha, key', h1, h2, _, h3⟩ := clean_row_origin hrow
    rw [hkey] at h2
    injection h2 with h2
    subst h2
    exact homit a ha h1 ((h3 t).1 hmem).1

/-- Witness of C7: the student table lists `s1` under `X`, the roster of `X`
omits `s1`. -/
theorem clean_survival_witness :
    ∃ out, clean [["X", "s2"]] [["s1", "X"], ["s2", "X"]] = some out ∧
      (∀ row ∈ out, ∃ a ∈ ([["X", "s2"]] : V2D), ∃ key, a[0]? = some key ∧
        row[0]? = some key ∧
        ∀ t, t ∈ row.drop 1 ↔
          (t ∈ a.drop 1 ∧ ∃ b ∈ ([["s1", "X"], ["s2", "X"]] : V2D), t ∈ b ∧ key ∈ b)) ∧
      (∀ key t, (∀ a ∈ ([["X", "s2"]] : V2D), a[0]? = some key → t ∉ a.drop 1) →
        ∀ row ∈ out, row[0]? = some key → t ∉ row.drop 1) :=
  clean_survival [["X", "s2"]] [["s1", "X"], ["s2", "X"]] (by decide)

/-- C8 fails on the code: for the course row `X, s1` and the single student
record `s2, X, s1`, `clean` keeps `s1` under `X` although no record of the
student table has the key `s1`. -/
theorem clean_symmetry_fails :
    clean [["X", "s1"]] [["s2", "X", "s1"]] = some [["X", "s1"]] ∧
      ¬ ∃ b ∈ ([["s2", "X", "s1"]] : V2D), b[0]? = some "s1" ∧ "X" ∈ b.drop 1 := by
  decide

/-- C9 (non-emptiness): on a course table with non-empty rows every output row
of `clean` has a key and at least one student, and a course none of whose
input rows has a surviving student is absent from the output. -/
theorem clean_nonempty (cv student : V2D) (hne : RowsNonEmpty cv) :
    ∃ out, clean cv student = some out ∧ (∀ row ∈ out, 2 ≤ row.length) ∧
      (∀ key, (∀ a ∈ cv, a[0]? = some key →
          ∀ t ∈ a.drop 1, ¬ ∃ b ∈ student, t ∈ b ∧ key ∈ b) →
        key ∉ keys out) := by
  refine ⟨_, clean_spec student hne, ?_, ?_⟩
  · intro row hrow
    obtain ⟨_, _, _, _, _, h, _⟩ := clean_row_origin hrow
    exact h
  · intro key hnone hkey
    obtain ⟨row, hrow, hk⟩ := mem_keys hkey
    obtain ⟨a, ha, key', h1, h2, hlen, h3⟩ := clean_row_origin hrow
    rw [hk] at h2
    injection h2 with h2
    subst h2
    cases row with
    | nil => simp at hlen
    | cons k rest =>
      cases rest with
      | nil => simp at hlen
      | cons t rest2 =>
        have hmem : t ∈ (k :: t :: rest2).drop 1 := by simp
        obtain ⟨ht, hb⟩ := (h3 t).1 hmem
        exact hnone a ha h1 t ht hb

/-- Witness of C9: course `Y` has no student, the only student of `Z` is removed. -/
theorem clean_nonempty_witness :
    ∃ out, clean [["X", "s1"], ["Y"], ["Z", "s2"]] [["s1", "X"]] = some out ∧
      (∀ row ∈ out, 2 ≤ row.length) ∧
      (∀ key, (∀ a ∈ ([["X", "s1"], ["Y"], ["Z", "s2"]] : V2D), a[0]? = some key →
          ∀ t ∈ a.drop 1, ¬ ∃ b ∈ ([["s1", "X"]] : V2D), t ∈ b ∧ key ∈ b) →
        key ∉ keys out) :=
  clean_nonempty [["X", "s1"], ["Y"], ["Z", "s2"]] [["s1", "X"]] (by decide)

/-- C10 (surviving courses and their order): on a course table with non-empty
rows the keys of the output of `clean` are the keys of the input rows that
have a student token which some record of the student table holds together
with the row's key, in input order; the output is empty when the course table
or the student table is empty. -/
theorem clean_keys (cv student : V2D) (hne : RowsNonEmpty cv) :
    ∃ out, clean cv student = some out ∧
      keys out = keys (cv.filter (fun a => survives student a)) ∧
      (∀ a, survives student a = true ↔
        ∃ key, a[0]? = some key ∧ ∃ t ∈ a.drop 1, ∃ b ∈ student, t ∈ b ∧ key ∈ b) ∧
      (cv = [] → out = []) ∧ (student = [] → out = []) := by
  refine ⟨_, clean_spec student hne, keys_filterMap_cleanRow student cv,
    survives_iff student, ?_, ?_⟩
  · intro h; rw [h]; rfl
  · intro h; rw [h]; exact filterMap_cleanRow_nil cv

/-- Witness of C10: of three courses the first and the third survive. -/
theorem clean_keys_witness :
    ∃ out, clean [["X", "s1"], ["Y", "s2"], ["Z", "s3"]] [["s1", "X"], ["s3", "Z"]] = some out ∧
      keys out = keys (([["X", "s1"], ["Y", "s2"], ["Z", "s3"]] : V2D).filter
        (fun a => survives [["s1", "X"], ["s3", "Z"]] a)) ∧
      (∀ a, survives [["s1", "X"], ["s3", "Z"]] a = true ↔
        ∃ key, a[0]? = some key ∧ ∃ t ∈ a.drop 1,
          ∃ b ∈ ([["s1", "X"], ["s3", "Z"]] : V2D), t ∈ b ∧ key ∈ b) ∧
      (([["X", "s1"], ["Y", "s2"], ["Z", "s3"]] : V2D) = [] → out = []) ∧
      (([["s1", "X"], ["s3", "Z"]] : V2D) = [] → out = []) :=
  clean_keys [["X", "s1"], ["Y", "s2"], ["Z", "s3"]] [["s1", "X"], ["s3", "Z"]] (by decide)

/-! ## Claims on the conflict graph -/

/-- C12, the claim as stated fails: a single course with one student gets the
diagonal entry `1`. -/
theorem buildAdjacencyMatrix_diagonal_one :
    buildAdjacencyMatrix [["A", "s1"]] = some [[1]] ∧ getEntry [[1]] 0 0 = some 1 := by
  decide

/-- C12 as amended: on a table with non-empty rows the diagonal entry
`adj[i][i]` is `1` for every course that has at least one roster token and `0`
for a course whose record is its key alone. -/
theorem buildAdjacencyMatrix_diagonal (courses : V2D) (hne : RowsNonEmpty courses) :
    ∃ adj, buildAdjacencyMatrix courses = some adj ∧
      ∀ (i : Nat) (ci : List String), courses[i]? = some ci →
        (2 ≤ ci.length → getEntry adj i i = some 1) ∧
        (ci.length = 1 → getEntry adj i i = some 0) := by
  obtain ⟨adj, hadj, _, hc⟩ := buildAdjacencyMatrix_spec hne
  refine ⟨adj, hadj, ?_⟩
  intro i ci hci
  have hi : i < courses.length := lt_length_of_getElem? hci
  constructor
  · intro hlen
    cases ci with
    | nil => simp at hlen
    | cons key toks =>
      cases toks with
      | nil => simp at hlen
      | cons tok rest =>
        apply (hc i hi i hi).1
        left
        exact ⟨_, _, hci, hci, tok, by simp, by simp⟩
  · intro hlen
    apply (hc i hi i hi).2
    have hno : ¬ Hit courses i i := by
      rintro ⟨c1, c2, h1, _, tok, h3, _⟩
      rw [hci] at h1
      injection h1 with h1
      subst h1
      cases ci with
      | nil => simp at hlen
      | cons key toks =>
        cases toks with
        | nil => simp at h3
        | cons t rest => simp at hlen
    exact fun h => h.elim hno hno

/-- Witness of C12 as amended: course `A` has a student, course `B` has none. -/
theorem buildAdjacencyMatrix_diagonal_witness :
    ∃ adj, buildAdjacencyMatrix [["A", "s1"], ["B"]] = some adj ∧
      ∀ (i : Nat) (ci : List String), ([["A", "s1"], ["B"]] : V2D)[i]? = some ci →
        (2 ≤ ci.length → getEntry adj i i = some 1) ∧
        (ci.length = 1 → getEntry adj i i = some 0) :=
  buildAdjacencyMatrix_diagonal [["A", "s1"], ["B"]] (by decide)

/-- C13 (shape and symmetry): on a table of `n` courses with non-empty rows
`buildAdjacencyMatrix` returns `n` rows of length `n`, every entry is `0` or
`1`, and `adj[i][j] = adj[j][i]`. -/
theorem buildAdjacencyMatrix_shape (courses : V2D) (hne : RowsNonEmpty courses) :
    ∃ adj, buildAdjacencyMatrix courses = some adj ∧
      adj.length = courses.length ∧ (∀ row ∈ adj, row.length = courses.length) ∧
      (∀ i, i < courses.length → ∀ j, j < courses.length →
        (getEntry adj i j = some 0 ∨ getEntry adj i j = some 1) ∧
        getEntry adj i j = getEntry adj j i) := by
  obtain ⟨adj, hadj, hm, hc⟩ := buildAdjacencyMatrix_spec hne
  refine ⟨adj, hadj, hm.1, hm.2, ?_⟩
  intro i hi j hj
  refine ⟨?_, buildAdjacencyMatrix_symmetric hne hadj i hi j hj⟩
  by_cases hh : Hit courses j i ∨ Hit courses i j
  · exact Or.inr ((hc i hi j hj).1 hh)
  · exact Or.inl ((hc i hi j hj).2 hh)

/-- Witness of C13 on three courses. -/
theorem buildAdjacencyMatrix_shape_witness :
    ∃ adj, buildAdjacencyMatrix [["A", "s1", "s2"], ["B", "s2"], ["C", "s3"]] = some adj ∧
      adj.length = ([["A", "s1", "s2"], ["B", "s2"], ["C", "s3"]] : V2D).length ∧
      (∀ row ∈ adj,
        row.length = ([["A", "s1", "s2"], ["B", "s2"], ["C", "s3"]] : V2D).length) ∧
      (∀ i, i < ([["A", "s1", "s2"], ["B", "s2"], ["C", "s3"]] : V2D).length →
        ∀ j, j < ([["A", "s1", "s2"], ["B", "s2"], ["C", "s3"]] : V2D).length →
        (getEntry adj i j = some 0 ∨ getEntry adj i j = some 1) ∧
        getEntry adj i j = getEntry adj j i) :=
  buildAdjacencyMatrix_shape [["A", "s1", "s2"], ["B", "s2"], ["C", "s3"]] (by decide)

/-- C14 (edge criterion): on a table with non-empty rows, for distinct course
indices `i`, `j` the entry `adj[i][j]` is `1` iff a roster token of one of the
two courses occurs in the record of the other, and `0` otherwise. -/
theorem buildAdjacencyMatrix_edge (courses : V2D) (hne : RowsNonEmpty courses) :
    ∃ adj, buildAdjacencyMatrix courses = some adj ∧
      ∀ i, i < courses.length → ∀ j, j < courses.length → i ≠ j →
        (getEntry adj i j = some 1 ↔ (Hit courses i j ∨ Hit courses j i)) ∧
        (¬ (Hit courses i j ∨ Hit courses j i) → getEntry adj i j = some 0) := by
  obtain ⟨adj, hadj, _, hc⟩ := buildAdjacencyMatrix_spec hne
  refine ⟨adj, hadj, ?_⟩
  intro i hi j hj _
  refine ⟨⟨?_, fun h => (hc i hi j hj).1 h.symm⟩, fun h => (hc i hi j hj).2 (fun h' => h h'.symm)⟩
  intro h1
  by_contra hno
  rw [(hc i hi j hj).2 (fun h' => hno h'.symm)] at h1
  simp at h1

/-- Witness of C14 on three courses. -/
theorem buildAdjacencyMatrix_edge_witness :
    ∃ adj, buildAdjacencyMatrix [["A", "s1", "s2"], ["B", "s2"], ["C", "s3"]] = some adj ∧
      ∀ i, i < ([["A", "s1", "s2"], ["B", "s2"], ["C", "s3"]] : V2D).length →
        ∀ j, j < ([["A", "s1", "s2"], ["B", "s2"], ["C", "s3"]] : V2D).length → i ≠ j →
        (getEntry adj i j = some 1 ↔
          (Hit [["A", "s1", "s2"], ["B", "s2"], ["C", "s3"]] i j ∨
            Hit [["A", "s1", "s2"], ["B", "s2"], ["C", "s3"]] j i)) ∧
        (¬ (Hit [["A", "s1", "s2"], ["B", "s2"], ["C", "s3"]] i j ∨
            Hit [["A", "s1", "s2"], ["B", "s2"], ["C", "s3"]] j i) →
          getEntry adj i j = some 0) :=
  buildAdjacencyMatrix_edge [["A", "s1", "s2"], ["B", "s2"], ["C", "s3"]] (by decide)

/-! ## Further claims on the colouring search -/

/-- C17, the claim as stated fails: started at `k = 0` on the array `0, 7, 0`
with one colour, the search fails and leaves `0, 0, 0`, so index `1` is not
restored. -/
theorem graphColor_restore_fails :
    graphColor 4 0 1 [0, 7, 0] [[0, 0, 1], [0, 0, 0], [1, 0, 0]] 3 = some (false, [0, 0, 0]) ∧
      IsMatrix 3 [[0, 0, 1], [0, 0, 0], [1, 0, 0]] ∧
      ([0, 0, 0] : List Nat).getD 1 0 ≠ ([0, 7, 0] : List Nat).getD 1 0 := by
  decide

/-- C17 as amended: when the vertices above `k` are unassigned and
`graphColor(k, m, colors, adj, v)` returns `false`, the array after the call
has the same length, agrees with the array before the call at every index
other than `k`, and has `colors[k] = 0` whenever some colour was tried at
depth `k`; started from all zeros at `k = 0` it is all zeros again. -/
theorem graphColor_restores (v m fuel k : Nat) (adj : List (List Int)) (colors cs : List Nat)
    (hz : ZerosAbove k colors)
    (h : graphColor fuel k m colors adj v = some (false, cs)) :
    cs.length = colors.length ∧ (∀ i, i ≠ k → cs.getD i 0 = colors.getD i 0) ∧
      ((∃ c, 1 ≤ c ∧ c ≤ m ∧ isSafe k c adj v colors = some true) → cs.getD k 0 = 0) ∧
      (k = 0 → colors = List.replicate v 0 → cs = List.replicate v 0) := by
  obtain ⟨h1, h2, h3, h4⟩ := graphColor_restore fuel k colors cs hz h
  refine ⟨h1, h2, h3, ?_⟩
  intro hk hc
  subst hc
  apply ext_getD h1
  intro i
  by_cases hi : i = k
  · subst hi
    by_cases ht : ∃ c, 1 ≤ c ∧ c ≤ m ∧ isSafe i c adj v (List.replicate v 0) = some true
    · rw [h3 ht, getD_replicate_zero]
    · rw [h4 ht]
  · exact h2 i hi

/-- Witness of C17 as amended: the triangle with two colours, started at depth
`1` with vertex `0` coloured. -/
theorem graphColor_restores_witness :
    [1, 0, 0].length = [1, 0, 0].length ∧
      (∀ i, i ≠ 1 → ([1, 0, 0] : List Nat).getD i 0 = ([1, 0, 0] : List Nat).getD i 0) ∧
      ((∃ c, 1 ≤ c ∧ c ≤ 2 ∧
          isSafe 1 c [[0, 1, 1], [1, 0, 1], [1, 1, 0]] 3 [1, 0, 0] = some true) →
        ([1, 0, 0] : List Nat).getD 1 0 = 0) ∧
      (1 = 0 → [1, 0, 0] = List.replicate 3 0 → [1, 0, 0] = List.replicate 3 0) :=
  graphColor_restores 3 2 3 1 [[0, 1, 1], [1, 0, 1], [1, 1, 0]] [1, 0, 0] [1, 0, 0]
    (fun i hi => by
      match i, hi with
      | 2, _ => rfl
      | n + 3, _ => rfl)
    (by decide)

/-- C19 (least colouring): when `graphColor(0, m, colors, adj, v)` started on
`v` zeros returns `true`, the final array is lexicographically less than or
equal to every valid `m`-colouring of `adj`. -/
theorem graphColor_least (v m fuel : Nat) (adj : List (List Int)) (cs : List Nat)
    (g : Nat → Nat)
    (h : graphColor fuel 0 m (List.replicate v 0) adj v = some (true, cs))
    (hg : ValidColoring adj v m g) : LexLE v (fun i => cs.getD i 0) g :=
  graphColor_lex fuel 0 (List.replicate v 0) cs (Nat.zero_le v)
    (List.length_replicate _ _) (searchState_zeros adj m v) h g
    (prefixValid_of_validColoring hg) (fun i hi => by omega)

/-- Witness of C19 on the path `0 - 1 - 2` with two colours: the result
`1, 2, 1` against the other valid colouring `2, 1, 2`. -/
theorem graphColor_least_witness :
    LexLE 3 (fun i => [1, 2, 1].getD i 0) (fun i => [2, 1, 2].getD i 0) :=
  graphColor_least 3 2 4 [[0, 1, 0], [1, 0, 1], [0, 1, 0]] [1, 2, 1]
    (fun i => [2, 1, 2].getD i 0) (by decide) (by decide)

/-- C20 (termination and index safety): on a `v`-by-`v` matrix, an array of
length `v` and a depth `k <= v`, `graphColor(k, m, colors, adj, v)` returns
one result for every fuel above `v - k`, with no subscript out of range, and
so does every call of `isSafe` at a vertex `k < v`. -/
theorem graphColor_terminates (v m k : Nat) (adj : List (List Int)) (colors : List Nat)
    (hm : IsMatrix v adj) (hlen : colors.length = v) (hk : k ≤ v) :
    (∃ r, r.2.length = v ∧
      ∀ fuel, v - k < fuel → graphColor fuel k m colors adj v = some r) ∧
    (k < v → ∀ c, ∃ b, isSafe k c adj v colors = some b) := by
  constructor
  · obtain ⟨r, hr, hl⟩ := graphColor_total m hm (v - k + 1) k colors hk (by omega) hlen
    refine ⟨r, hl, ?_⟩
    intro fuel hf
    have := graphColor_mono (fuel - (v - k + 1)) (v - k + 1) hr
    have he : v - k + 1 + (fuel - (v - k + 1)) = fuel := by omega
    rw [he] at this
    exact this
  · intro hkv c
    exact isSafeLoop_total k c adj colors v 0
      (fun j _ hj => ⟨getEntry_isSome hm hkv (by omega), by omega⟩)

/-- Witness of C20 on the triangle with two colours. -/
theorem graphColor_terminates_witness :
    (∃ r, r.2.length = 3 ∧
      ∀ fuel, 3 - 0 < fuel →
        graphColor fuel 0 2 [0, 0, 0] [[0, 1, 1], [1, 0, 1], [1, 1, 0]] 3 = some r) ∧
    (0 < 3 → ∀ c, ∃ b, isSafe 0 c [[0, 1, 1], [1, 0, 1], [1, 1, 0]] 3 [0, 0, 0] = some b) :=
  graphColor_terminates 3 2 0 [[0, 1, 1], [1, 0, 1], [1, 1, 0]] [0, 0, 0]
    (by decide) (by decide) (by decide)

/-! ## Further claims on `clean` and `schedule` -/

/-- C11 fails on the code: the roster `X, s1` with two student records that
each hold `s1` and `X` gives `s1` twice, where the filter of the claim keeps
it once. -/
theorem clean_filter_fails :
    clean [["X", "s1"]] [["s1", "X"], ["s2", "X", "s1"]] = some [["X", "s1", "s1"]] ∧
      filterRoster [["s1", "X"], ["s2", "X", "s1"]] ["X", "s1"] = ["X", "s1"] := by
  decide

/-- C15 (pairwise-conflicting courses): on a table of `v` courses with non-empty
rows in which every two distinct courses share a roster token, with at least
`v` timeslots, `schedule` returns `|timeslots|` rows; row `i` is
`timeslots[i]` and the key of course `i` for `i < v`, and `timeslots[i]`
alone for `i >= v`. -/
theorem schedule_pairwise_conflicts (courses : V2D) (timeslots : List String)
    (hne : RowsNonEmpty courses)
    (hall : ∀ i, i < courses.length → ∀ j, j < courses.length → i ≠ j →
      SharesToken courses i j)
    (hlen : courses.length ≤ timeslots.length) :
    ∃ out, schedule courses timeslots = some out ∧ out.length = timeslots.length ∧
      ∀ (i : Nat) (t : String), timeslots[i]? = some t →
        (∀ key, (keys courses)[i]? = some key → out[i]? = some [t, key]) ∧
        (courses.length ≤ i → out[i]? = some [t]) := by
  obtain ⟨adj, hadj, _, hc⟩ := buildAdjacencyMatrix_spec hne
  have hg : ValidColoring adj courses.length timeslots.length (fun i => i + 1) := by
    intro i hi
    refine ⟨⟨?_, ?_⟩, ?_⟩
    · show 1 ≤ i + 1; omega
    · show i + 1 ≤ timeslots.length; omega
    · intro j _ hij _
      show i + 1 ≠ j + 1
      omega
  obtain ⟨cs, hs, hcl, hval, hlex⟩ := scheduleSearch_found hne hadj hg
  have hcs : ∀ a, a < cs.length → cs.getD a 0 = 0 + a + 1 := by
    intro a ha
    rw [hcl] at ha
    rcases hlex with h | ⟨i, hi, hlt, hbelow⟩
    · rw [Nat.zero_add]; exact h a ha
    · exfalso
      simp only at hlt hbelow
      have h1 := (hval i hi).1.1
      simp only at h1
      have hj : cs.getD i 0 - 1 < i := by omega
      have hentry : getEntry adj i (cs.getD i 0 - 1) = some 1 :=
        (hc i hi _ (by omega)).1 (Or.inr (hit_of_sharesToken (hall i hi _ (by omega) (by omega))))
      have := (hval i hi).2 _ (by omega) (by omega) hentry
      simp only at this
      rw [hbelow _ hj] at this
      omega
  refine ⟨_, schedule_success hs, rowsFrom_length _ _ _ _, ?_⟩
  intro i t ht
  have hrow : (rowsFrom (keys courses) cs 0 timeslots)[i]? =
      some (t :: ((keys courses)[i]?).toList) := by
    rw [rowsFrom_getElem?, ht]
    simp only [Option.map_some', Option.some.injEq, List.cons.injEq, true_and]
    rw [slotCourses_index (keys courses) cs 0 (by rw [hcl, keys_length hne]) hcs,
      if_pos (by omega)]
    have : 0 + i + 1 - 0 - 1 = i := by omega
    rw [this]
  constructor
  · intro key hkey
    rw [hrow, hkey]
    rfl
  · intro hi
    rw [hrow, List.getElem?_eq_none (by rw [keys_length hne]; exact hi)]
    rfl

/-- Witness of C15: the triangle `A-{s1,s2}`, `B-{s2,s3}`, `C-{s1,s3}` with
three timeslots. -/
theorem schedule_pairwise_conflicts_witness :
    ∃ out, schedule [["A", "s1", "s2"], ["B", "s2", "s3"], ["C", "s1", "s3"]]
        ["t1", "t2", "t3"] = some out ∧
      out.length = ["t1", "t2", "t3"].length ∧
      ∀ (i : Nat) (t : String), ["t1", "t2", "t3"][i]? = some t →
        (∀ key, (keys [["A", "s1", "s2"], ["B", "s2", "s3"], ["C", "s1", "s3"]])[i]? = some key →
          out[i]? = some [t, key]) ∧
        (([["A", "s1", "s2"], ["B", "s2", "s3"], ["C", "s1", "s3"]] : V2D).length ≤ i →
          out[i]? = some [t]) :=
  schedule_pairwise_conflicts [["A", "s1", "s2"], ["B", "s2", "s3"], ["C", "s1", "s3"]]
    ["t1", "t2", "t3"] (by decide) (by decide) (by decide)

/-- C16 (conflict-free courses): on a table with non-empty rows in which no
roster token of a course occurs in the record of a different course, with at
least one timeslot, the search of `schedule` succeeds; row `0` is
`timeslots[0]` followed by all course keys in table order and every later row
is its label alone. -/
theorem schedule_no_conflicts (courses : V2D) (timeslots : List String)
    (hne : RowsNonEmpty courses)
    (hno : ∀ i, i < courses.length → ∀ j, j < courses.length → i ≠ j → ¬ Hit courses i j)
    (hts : timeslots ≠ []) :
    ∃ cs out, scheduleSearch courses timeslots = some (keys courses, true, cs) ∧
      schedule courses timeslots = some out ∧ out.length = timeslots.length ∧
      (∀ t, timeslots[0]? = some t → out[0]? = some (t :: keys courses)) ∧
      (∀ (i : Nat) (t : String), 0 < i → timeslots[i]? = some t → out[i]? = some [t]) := by
  obtain ⟨adj, hadj, _, hc⟩ := buildAdjacencyMatrix_spec hne
  have hm : 1 ≤ timeslots.length := by
    cases timeslots with
    | nil => exact (hts rfl).elim
    | cons t rest => simp
  have hg : ValidColoring adj courses.length timeslots.length (fun _ => 1) := by
    intro i hi
    refine ⟨⟨le_refl _, hm⟩, ?_⟩
    intro j hj hij hentry
    rw [(hc i hi j hj).2 (fun h => h.elim (hno j hj i hi (fun e => hij e.symm)) (hno i hi j hj hij))]
      at hentry
    simp at hentry
  obtain ⟨cs, hs, hcl, hval, hlex⟩ := scheduleSearch_found hne hadj hg
  have hone : ∀ c ∈ cs, c = 1 := by
    apply all_of_getD
    intro a ha
    rw [hcl] at ha
    rcases hlex with h | ⟨i, hi, hlt, _⟩
    · exact h a ha
    · have h1 := (hval i hi).1.1
      simp only at hlt h1
      omega
  refine ⟨cs, _, hs, schedule_success hs, rowsFrom_length _ _ _ _, ?_, ?_⟩
  · intro t ht
    rw [rowsFrom_getElem?, ht]
    simp only [Option.map_some', Option.some.injEq, List.cons.injEq, true_and]
    exact slotCourses_all (keys courses) cs (by rw [hcl, keys_length hne]) hone
  · intro i t hi ht
    rw [rowsFrom_getElem?, ht]
    simp only [Option.map_some', Option.some.injEq, List.cons.injEq, true_and]
    exact slotCourses_none (keys courses) cs (fun c hcm => by rw [hone c hcm]; omega)

/-- Witness of C16: courses `A-{s1}` and `B-{s2}` with the single timeslot `t1`. -/
theorem schedule_no_conflicts_witness :
    ∃ cs out, scheduleSearch [["A", "s1"], ["B", "s2"]] ["t1"] =
        some (keys [["A", "s1"], ["B", "s2"]], true, cs) ∧
      schedule [["A", "s1"], ["B", "s2"]] ["t1"] = some out ∧ out.length = ["t1"].length ∧
      (∀ t, ["t1"][0]? = some t → out[0]? = some (t :: keys [["A", "s1"], ["B", "s2"]])) ∧
      (∀ (i : Nat) (t : String), 0 < i → ["t1"][i]? = some t → out[i]? = some [t]) :=
  schedule_no_conflicts [["A", "s1"], ["B", "s2"]] ["t1"] (by decide) (by decide) (by decide)

/-- C18 (every course scheduled exactly once): when the colouring search of
`schedule` succeeds, `schedule` returns rows whose course lists, one after the
other in row order, are a permutation of the keys of the course table. -/
theorem schedule_each_course_once (courses : V2D) (timeslots co : List String) (cs : List Nat)
    (hne : RowsNonEmpty courses)
    (hs : scheduleSearch courses timeslots = some (co, true, cs)) :
    ∃ out, schedule courses timeslots = some out ∧
      (concatCourses out).Perm (keys courses) := by
  refine ⟨_, schedule_success hs, ?_⟩
  obtain ⟨hlen, adj, _, hval⟩ := scheduleSearch_valid hs
  apply concatCourses_rowsFrom_perm timeslots (keys courses) cs (by rw [hlen, keys_length hne])
  apply all_of_getD
  intro i hi
  rw [hlen] at hi
  exact (hval i hi).1

/-- Witness of C18: three courses on two timeslots. -/
theorem schedule_each_course_once_witness :
    ∃ out, schedule [["A", "s1", "s2"], ["B", "s2"], ["C", "s3"]] ["t1", "t2"] = some out ∧
      (concatCourses out).Perm (keys [["A", "s1", "s2"], ["B", "s2"], ["C", "s3"]]) :=
  schedule_each_course_once [["A", "s1", "s2"], ["B", "s2"], ["C", "s3"]] ["t1", "t2"]
    ["A", "B", "C"] [1, 2, 1] (by decide) (by decide)

end ScheduleGen
